import Mathlib

/-!
Verification of the DETR Hungarian-matching / set-criterion subsystem
(src/transformers/models/detr/modeling_detr.py), the EnCodec residual
vector quantizer (src/transformers/models/encodec/modeling_encodec.py)
and the token-classification pipeline constructor
(src/transformers/pipelines/token_classification.py), as a shallow
embedding over exact rationals.

Modelling conventions:
* Float arithmetic is idealised as exact rational arithmetic.  The
  transcendental float functions `exp` and `log` are idealised by fixed
  computable rational approximations (`expQ`, `logQ`); no theorem below
  depends on their values.
* A float division whose denominator is zero produces IEEE NaN/Inf in the
  source; this is modelled by `Option ℚ`, with `none` standing for a
  non-finite value, and `none` propagating through arithmetic the way NaN
  does.
* A Python exception (failed `assert`, out-of-range index, scipy rejecting
  a cost matrix that contains NaN) is modelled by `Except String`.
-/

deriving instance DecidableEq for Except

namespace Spec2Proof

/-- Truncated Taylor series of the exponential: the fixed rational stand-in
used by `expQ` below. -/
def expTaylor (x : ℚ) : ℚ :=
  ((List.range 8).map (fun k => x ^ k / (Nat.factorial k : ℚ))).sum

/-- Idealisation of the float exponential by a computable rational
approximation (exact at 0).  No theorem in this file depends on its values. -/
def expQ (x : ℚ) : ℚ :=
  if 0 ≤ x then expTaylor x else 1 / expTaylor (-x)

/-- Idealisation of the float natural logarithm by a truncated Taylor series
around 1.  No theorem in this file depends on its values. -/
def logQ (x : ℚ) : ℚ :=
  (x - 1) - (x - 1) ^ 2 / 2 + (x - 1) ^ 3 / 3 - (x - 1) ^ 4 / 4

/-- Division with float zero-denominator semantics: `none` models the IEEE
NaN/Inf the source would produce. -/
def safeDiv (a b : ℚ) : Option ℚ :=
  if b = 0 then none else some (a / b)

/-- Binary maximum on ℚ written with an explicit `if` (the lattice `max` of
Mathlib does not evaluate well on concrete rationals). -/
def maxQ (a b : ℚ) : ℚ :=
  if a ≤ b then b else a

/-- Binary minimum on ℚ written with an explicit `if`. -/
def minQ (a b : ℚ) : ℚ :=
  if a ≤ b then a else b

/-- Softmax over one row of logits (`Tensor.softmax(-1)` in the source),
with the float exponential idealised by `expQ`. -/
def softmaxRow (xs : List ℚ) : List ℚ :=
  let exps := xs.map expQ
  exps.map (fun e => e / exps.sum)

/- ### Bounding boxes (modeling_detr.py) -/

/-- A box in `[x0, y0, x1, y1]` (corner) format. -/
structure CornersBox where
  x0 : ℚ
  y0 : ℚ
  x1 : ℚ
  y1 : ℚ
deriving DecidableEq, Repr

/-- A box in `(center_x, center_y, width, height)` format, the format the
DETR model predicts. -/
structure CenterBox where
  cx : ℚ
  cy : ℚ
  w : ℚ
  h : ℚ
deriving DecidableEq, Repr

/-- Conversion from center format to corner format:
`[cx - w/2, cy - h/2, cx + w/2, cy + h/2]` (helper `center_to_corners_format`
imported by modeling_detr.py from the DETR feature extractor; the standard
conversion described by the box-format notes in the source docstrings). -/
def center_to_corners_format (b : CenterBox) : CornersBox :=
  { x0 := b.cx - b.w / 2, y0 := b.cy - b.h / 2
    x1 := b.cx + b.w / 2, y1 := b.cy + b.h / 2 }

/-- `box_area` (torchvision): `(x1 - x0) * (y1 - y0)`. -/
def box_area (b : CornersBox) : ℚ :=
  (b.x1 - b.x0) * (b.y1 - b.y0)

/-- The well-formedness condition asserted by `generalized_box_iou`:
`boxes[:, 2:] >= boxes[:, :2]`. -/
def isWellFormedBox (b : CornersBox) : Bool :=
  decide (b.x0 ≤ b.x1) && decide (b.y0 ≤ b.y1)

/-- One entry of `box_iou` (modeling_detr.py): intersection over union plus
the union, for a single pair of corner boxes.  `none` models the NaN produced
by a zero union. -/
def box_iou_pair (b1 b2 : CornersBox) : Option (ℚ × ℚ) :=
  let area1 := box_area b1
  let area2 := box_area b2
  let ltx := maxQ b1.x0 b2.x0
  let lty := maxQ b1.y0 b2.y0
  let rbx := minQ b1.x1 b2.x1
  let rby := minQ b1.y1 b2.y1
  let whx := maxQ (rbx - ltx) 0
  let why := maxQ (rby - lty) 0
  let inter := whx * why
  let union := area1 + area2 - inter
  (safeDiv inter union).map (fun iou => (iou, union))

/-- One entry of `generalized_box_iou`: `iou - (area - union) / area` where
`area` is the area of the smallest enclosing box. -/
def generalized_box_iou_pair (b1 b2 : CornersBox) : Option ℚ := do
  let iu ← box_iou_pair b1 b2
  let ltx := minQ b1.x0 b2.x0
  let lty := minQ b1.y0 b2.y0
  let rbx := maxQ b1.x1 b2.x1
  let rby := maxQ b1.y1 b2.y1
  let whx := maxQ (rbx - ltx) 0
  let why := maxQ (rby - lty) 0
  let area := whx * why
  let pen ← safeDiv (area - iu.2) area
  pure (iu.1 - pen)

/-- `generalized_box_iou` (modeling_detr.py): asserts both box lists are
well-formed (degenerate boxes with a max corner below the min corner raise),
then returns the pairwise GIoU matrix; a `none` entry models a NaN entry. -/
def generalized_box_iou (boxes1 boxes2 : List CornersBox) :
    Except String (List (List (Option ℚ))) :=
  if boxes1.all isWellFormedBox && boxes2.all isWellFormedBox then
    .ok (boxes1.map (fun a => boxes2.map (fun b => generalized_box_iou_pair a b)))
  else
    .error "degenerate boxes"

/- ### EnCodec residual vector quantization (modeling_encodec.py) -/

/-- A feature vector: one time step of the `[batch, dim, time]` tensor after
the `"b d n -> b n d"` rearrange. -/
abbrev Vec := List ℚ

/-- Dot product of two (equal-length) vectors. -/
def dotQ (a b : Vec) : ℚ :=
  ((a.zip b).map (fun p => p.1 * p.2)).sum

/-- Squared Euclidean norm. -/
def sqNormQ (a : Vec) : ℚ :=
  dotQ a a

/-- Pointwise vector difference. -/
def subVec (a b : Vec) : Vec :=
  (a.zip b).map (fun p => p.1 - p.2)

/-- Pointwise vector sum. -/
def addVec (a b : Vec) : Vec :=
  (a.zip b).map (fun p => p.1 + p.2)

/-- One batch element of an encoder output: the list of its time-step
vectors. -/
abbrev Frames := List Vec

/-- Pointwise difference of two frame sequences. -/
def subFrames (x y : Frames) : Frames :=
  (x.zip y).map (fun p => subVec p.1 p.2)

/-- Pointwise sum of two frame sequences. -/
def addFrames (x y : Frames) : Frames :=
  (x.zip y).map (fun p => addVec p.1 p.2)

/-- Index of the first maximal element (`Tensor.max(dim=-1).indices`). -/
def argmaxIdx : List ℚ → ℕ
  | [] => 0
  | [_] => 0
  | a :: b :: rest =>
      let j := argmaxIdx (b :: rest)
      if a < (b :: rest).getD j 0 then j + 1 else 0

/-- `EuclideanCodebook.quantize` for one vector: the index maximising the
negated squared distance `-(‖x‖² - 2⟨x,e⟩ + ‖e‖²)` over codebook entries. -/
def quantizeVec (embed : List Vec) (x : Vec) : ℕ :=
  argmaxIdx (embed.map (fun e => -(sqNormQ x - 2 * dotQ x e + sqNormQ e)))

/-- `EuclideanCodebook.dequantize` (`F.embedding`): look the index up in the
codebook. -/
def dequantizeVec (embed : List Vec) (i : ℕ) : Vec :=
  embed.getD i []

/-- `EuclideanCodebook.encode` on one batch element: quantize every time
step.  (As instantiated by `ResidualVectorQuantizer`, the surrounding
`VectorQuantization.encode` adds only identity projections and the
`"b d n -> b n d"` rearrange that `Frames` already encodes.) -/
def codebookEncode (embed : List Vec) (x : Frames) : List ℕ :=
  x.map (quantizeVec embed)

/-- `EuclideanCodebook.decode` / `VectorQuantization.decode`: dequantize every
time step. -/
def codebookDecode (embed : List Vec) (idx : List ℕ) : Frames :=
  idx.map (dequantizeVec embed)

/-- The stage loop of `ResidualVectorQuantization.encode`: per layer, encode
the running residual, subtract the dequantized vectors from it, and push the
index array. -/
def rvqEncodeLoop : List (List Vec) → Frames → List (List ℕ)
  | [], _ => []
  | embed :: rest, residual =>
      let indices := codebookEncode embed residual
      let quantized := codebookDecode embed indices
      indices :: rvqEncodeLoop rest (subFrames residual quantized)

/-- `ResidualVectorQuantization.encode(x, n_q)`: `n_q = n_q or len(self.layers)`
(`None` and `0` both fall back to all layers), then loop over
`self.layers[:n_q]`.  Layers are represented by their codebooks. -/
def rvqEncode (layers : List (List Vec)) (x : Frames) (n_q : Option ℕ) :
    List (List ℕ) :=
  let nq : ℕ :=
    match n_q with
    | none => layers.length
    | some 0 => layers.length
    | some k => k
  rvqEncodeLoop (layers.take nq) x

/-- Sum of a list of frame sequences, starting from the scalar tensor `0.0`
(which broadcasts: `0 + x = x`). -/
def sumFrames : List Frames → Frames
  | [] => []
  | f :: rest => rest.foldl addFrames f

/-- `ResidualVectorQuantization.decode(q_indices)`: for each stage `i`, decode
its index array with layer `i` and sum the results. -/
def rvqDecode (layers : List (List Vec)) (codes : List (List ℕ)) : Frames :=
  sumFrames (codes.enum.map (fun p => codebookDecode (layers.getD p.1 []) p.2))

/-- Total squared norm of a frame sequence. -/
def framesSqNorm (x : Frames) : ℚ :=
  (x.map sqNormQ).sum

/-- Squared reconstruction error of the residual vector quantizer after
`n_q ≥ 1` stages: `‖x - decode(encode(x, n_q))‖²`. -/
def reconErrSq (layers : List (List Vec)) (x : Frames) (n_q : ℕ) : ℚ :=
  framesSqNorm (subFrames x (rvqDecode layers (rvqEncode layers x (some n_q))))

/-- `EuclideanCodebook` state: the buffers registered by the module.  (`dim`
is implicit in the entry lengths.) -/
structure EuclideanCodebook where
  decay : ℚ
  epsilon : ℚ
  codebook_size : ℕ
  kmeans_iters : ℕ
  threshold_ema_dead_code : ℕ
  inited : Bool
  cluster_size : List ℚ
  embed : List Vec
  embed_avg : List Vec
deriving DecidableEq, Repr

/-- `sample_vectors(samples, num)`: pick `num` rows of `samples` at random.
The randomness (`randperm` / `randint`) is supplied as an oracle list of row
indices. -/
def sample_vectors (rand : List ℕ) (samples : List Vec) (num : ℕ) : List Vec :=
  (rand.take num).map (fun i => samples.getD i [])

/-- `EuclideanCodebook.replace_`: `torch.where(mask[..., None], sampled,
embed)` written entrywise. -/
def replaceCodes (rand : List ℕ) (self : EuclideanCodebook) (samples : List Vec)
    (mask : List Bool) : EuclideanCodebook :=
  { self with
    embed :=
      (self.embed.zip ((sample_vectors rand samples self.codebook_size).zip mask)).map
        (fun p => if p.2.2 then p.2.1 else p.1) }

/-- `EuclideanCodebook.expire_codes_`: return immediately when the dead-code
threshold is `0`; otherwise, when some EMA cluster size is below the
threshold, resample those codebook entries from the batch. -/
def expire_codes_ (rand : List ℕ) (self : EuclideanCodebook) (batch_samples : List Vec) :
    EuclideanCodebook :=
  if self.threshold_ema_dead_code = 0 then self
  else
    let expired_codes :=
      self.cluster_size.map (fun s => decide (s < (self.threshold_ema_dead_code : ℚ)))
    if expired_codes.any (fun b => b) then replaceCodes rand self batch_samples expired_codes
    else self

/-- `ResidualVectorQuantizer` configuration. -/
structure ResidualVectorQuantizer where
  dimension : ℕ
  n_q : ℕ
  bins : ℕ
  decay : ℚ
  kmeans_init : Bool
  kmeans_iters : ℕ
  threshold_ema_dead_code : ℕ
deriving DecidableEq, Repr

/-- `get_bandwidth_per_quantizer`: `math.log2(self.bins) * frame_rate`.  The
float `math.log2` is modelled by `Nat.log2`, exact precisely when `bins` is a
power of two (the power-of-two codebook invariant stated by the spec). -/
def get_bandwidth_per_quantizer (self : ResidualVectorQuantizer) (frame_rate : ℕ) : ℚ :=
  (Nat.log2 self.bins : ℚ) * (frame_rate : ℚ)

/-- `get_num_quantizers_for_bandwidth`: `self.n_q` unless a strictly positive
bandwidth is given (`if bandwidth and bandwidth > 0.`), in which case
`int(max(1, math.floor(bandwidth * 1000 / bw_per_q)))`. -/
def get_num_quantizers_for_bandwidth (self : ResidualVectorQuantizer) (frame_rate : ℕ)
    (bandwidth : Option ℚ) : ℕ :=
  let bw_per_q := get_bandwidth_per_quantizer self frame_rate
  match bandwidth with
  | none => self.n_q
  | some bw => if 0 < bw then (max 1 ⌊bw * 1000 / bw_per_q⌋).toNat else self.n_q

/-- The default-configuration quantizer of the source (`n_q = 8`,
`bins = 1024`), used by concrete instances below. -/
def rvqDefault : ResidualVectorQuantizer :=
  { dimension := 256, n_q := 8, bins := 1024, decay := 99 / 100,
    kmeans_init := true, kmeans_iters := 50, threshold_ema_dead_code := 2 }

/-- The list of per-stage dequantized outputs of the encode loop: stage `i`
decodes, with its own codebook, the indices it produced on the running
residual.  (Reformulation of the pair `rvqEncodeLoop`/`rvqDecode` used to
state the loop invariants below.) -/
def quantizedLoop : List (List Vec) → Frames → List Frames
  | [], _ => []
  | embed :: rest, residual =>
      let q := codebookDecode embed (codebookEncode embed residual)
      q :: quantizedLoop rest (subFrames residual q)

/-- The residual a single time-step vector is left with after the encode loop
has consumed the given stage codebooks (the per-time-step view of the loop:
every stage subtracts the nearest codebook entry from the running
residual). -/
def singleResidual : List (List Vec) → Vec → Vec
  | [], v => v
  | embed :: rest, v =>
      singleResidual rest (subVec v (dequantizeVec embed (quantizeVec embed v)))

/- ### Hungarian matcher (modeling_detr.py) -/

/-- The three cost weights stored by `HungarianMatcher`. -/
structure HungarianMatcher where
  class_cost : ℚ
  bbox_cost : ℚ
  giou_cost : ℚ
deriving DecidableEq, Repr

/-- `HungarianMatcher.__init__`: store the three weights and assert
`class_cost != 0 or bbox_cost != 0 or giou_cost != 0` (message: all costs of
the matcher cannot be 0).  No other validation is performed. -/
def HungarianMatcher.init (class_cost bbox_cost giou_cost : ℚ) :
    Except String HungarianMatcher :=
  if class_cost ≠ 0 ∨ bbox_cost ≠ 0 ∨ giou_cost ≠ 0 then
    .ok { class_cost := class_cost, bbox_cost := bbox_cost, giou_cost := giou_cost }
  else
    .error "All costs of the Matcher cannot be 0"

/- ### Exact rectangular assignment (scipy.optimize.linear_sum_assignment),
modelled by exhaustive minimisation: an external dependency of the matcher,
embedded through its documented semantics (an exact minimum-cost matching of
`min(n, m)` pairs, row indices ascending). -/

/-- All ordered tuples of `k` pairwise-distinct elements of the pool. -/
def injections : ℕ → List ℕ → List (List ℕ)
  | 0, _ => [[]]
  | k + 1, pool =>
      pool.flatMap (fun c => (injections k (pool.erase c)).map (fun r => c :: r))

/-- Total cost of assigning row `i` to column `cols[i]` of the matrix. -/
def assignCost (M : List (List ℚ)) (cols : List ℕ) : ℚ :=
  (cols.enum.map (fun p => (M.getD p.1 []).getD p.2 0)).sum

/-- First minimiser of the cost among the candidates. -/
def argminCost (cost : List ℕ → ℚ) : List (List ℕ) → Option (List ℕ)
  | [] => none
  | c :: cs => some (cs.foldl (fun best y => if cost y < cost best then y else best) c)

/-- The assignment problem for `n ≤ m`: row `i` of `0..n-1` is assigned to
column `cols[i]` of a minimising injection. -/
def lsaLE (M : List (List ℚ)) (n m : ℕ) : List ℕ × List ℕ :=
  match argminCost (assignCost M) (injections n (List.range m)) with
  | some cols => (List.range n, cols)
  | none => ([], [])

/-- Insertion step of the row-index sort. -/
def insertPairByRow (p : ℕ × ℕ) : List (ℕ × ℕ) → List (ℕ × ℕ)
  | [] => [p]
  | q :: qs => if p.1 ≤ q.1 then p :: q :: qs else q :: insertPairByRow p qs

/-- Insertion sort of assignment pairs by row index (scipy returns the pairs
sorted by row index). -/
def sortPairsByRow : List (ℕ × ℕ) → List (ℕ × ℕ)
  | [] => []
  | p :: ps => insertPairByRow p (sortPairsByRow ps)

/-- Transpose of an `n × m` cost matrix given as a row list. -/
def transposeM (M : List (List ℚ)) (n m : ℕ) : List (List ℚ) :=
  (List.range m).map (fun j => (List.range n).map (fun i => (M.getD i []).getD j 0))

/-- `scipy.optimize.linear_sum_assignment` on a rectangular rational cost
matrix: a minimum-cost matching of `min(n, m)` row/column pairs, rows
ascending.  A matrix with more rows than columns is solved through its
transpose. -/
def linear_sum_assignment (M : List (List ℚ)) : List ℕ × List ℕ :=
  let n := M.length
  let m := (M.headD []).length
  if n ≤ m then lsaLE M n m
  else
    let p := lsaLE (transposeM M n m) m n
    let pairs := sortPairsByRow (p.2.zip p.1)
    (pairs.map Prod.fst, pairs.map Prod.snd)

/- ### HungarianMatcher.forward (modeling_detr.py) -/

/-- Model outputs consumed by the matcher: per batch element and query, the
class logits and the predicted center-format box. -/
structure MatcherOutputs where
  logits : List (List (List ℚ))
  pred_boxes : List (List CenterBox)
deriving DecidableEq, Repr

/-- One training target: the ground-truth class labels and boxes of a batch
element. -/
structure DetrTarget where
  class_labels : List ℕ
  boxes : List CenterBox
deriving DecidableEq, Repr

/-- `num_queries` as the matcher reads it from `outputs["logits"].shape`. -/
def numQueries (outputs : MatcherOutputs) : ℕ :=
  (outputs.logits.headD []).length

/-- `num_classes` as read from the last logits dimension. -/
def numClasses (outputs : MatcherOutputs) : ℕ :=
  ((outputs.logits.headD []).headD []).length

/-- The `p = 1` distance of `torch.cdist` on 4-coordinate boxes. -/
def l1CenterBox (a b : CenterBox) : ℚ :=
  |a.cx - b.cx| + |a.cy - b.cy| + |a.w - b.w| + |a.h - b.h|

/-- `C.view(bs, num_queries, -1)`: reshape a flat `(bs*q) × t` row list into
`bs` blocks of `q` rows by index arithmetic. -/
def viewRows (bs q : ℕ) (rows : List (List (Option ℚ))) :
    List (List (List (Option ℚ))) :=
  (List.range bs).map (fun b => (List.range q).map (fun i => rows.getD (b * q + i) []))

/-- `Tensor.split(sizes, dim)`: cut a list into consecutive pieces of the
given sizes. -/
def splitSizes {α : Type} : List ℕ → List α → List (List α)
  | [], _ => []
  | s :: rest, l => l.take s :: splitSizes rest (l.drop s)

/-- Resolve one row of possibly-NaN cost entries: `none` iff some entry is
non-finite (scipy rejects such a matrix). -/
def sequenceRow : List (Option ℚ) → Option (List ℚ)
  | [] => some []
  | o :: rest => o.bind (fun v => (sequenceRow rest).map (fun vs => v :: vs))

/-- Resolve one cost block row-by-row. -/
def sequenceBlock : List (List (Option ℚ)) → Option (List (List ℚ))
  | [] => some []
  | r :: rest => (sequenceRow r).bind (fun v => (sequenceBlock rest).map (fun vs => v :: vs))

/-- Resolve every per-batch-element cost block. -/
def sequenceBlocks : List (List (List (Option ℚ))) → Option (List (List (List ℚ)))
  | [] => some []
  | b :: rest =>
      (sequenceBlock b).bind (fun v => (sequenceBlocks rest).map (fun vs => v :: vs))

/-- `HungarianMatcher.forward`: flatten logits and boxes over the batch,
build the dense weighted cost matrix
`bbox_cost * cdist + class_cost * (-prob[tgt]) + giou_cost * (-giou)`,
view it per batch element, split its columns by target sizes, and solve each
batch element's block exactly.  Failure (`Except.error`) models the Python
exceptions: mismatched target shapes, out-of-range class labels, the
degenerate-box assert inside `generalized_box_iou`, indexing past the batch,
and scipy rejecting a cost matrix with non-finite entries. -/
def HungarianMatcher.forward (self : HungarianMatcher) (outputs : MatcherOutputs)
    (targets : List DetrTarget) : Except String (List (List ℕ × List ℕ)) :=
  let bs := outputs.logits.length
  let num_queries := numQueries outputs
  let out_prob := outputs.logits.join.map softmaxRow
  let out_bbox := outputs.pred_boxes.join
  let tgt_ids := (targets.map DetrTarget.class_labels).join
  let tgt_bbox := (targets.map DetrTarget.boxes).join
  if ¬ (targets.all fun t => t.class_labels.length == t.boxes.length) = true then
    .error "shape mismatch between target labels and boxes"
  else if ¬ (tgt_ids.all fun i => decide (i < numClasses outputs)) = true then
    .error "class label index out of range"
  else
    match generalized_box_iou (out_bbox.map center_to_corners_format)
        (tgt_bbox.map center_to_corners_format) with
    | .error e => .error e
    | .ok giou_matrix =>
      let costEntry : ℕ → ℕ → Option ℚ := fun i j =>
        ((giou_matrix.getD i []).getD j none).map (fun g =>
          self.bbox_cost *
              l1CenterBox (out_bbox.getD i { cx := 0, cy := 0, w := 0, h := 0 })
                (tgt_bbox.getD j { cx := 0, cy := 0, w := 0, h := 0 })
            + self.class_cost * (-((out_prob.getD i []).getD (tgt_ids.getD j 0) 0))
            + self.giou_cost * (-g))
      let C := (List.range (bs * num_queries)).map
        (fun i => (List.range tgt_bbox.length).map (fun j => costEntry i j))
      let Cview := viewRows bs num_queries C
      let sizes := targets.map (fun t => t.boxes.length)
      if bs < targets.length then .error "batch index out of range"
      else
        let blocks := (List.range targets.length).map (fun b =>
          (Cview.getD b []).map (fun row => (splitSizes sizes row).getD b []))
        match sequenceBlocks blocks with
        | none => .error "cost matrix contains invalid numeric entries"
        | some resolved => .ok (resolved.map linear_sum_assignment)

/-- Concrete matcher outputs (one batch element, two queries, two classes,
all-zero boxes) used by the C1 witness. -/
def c1WitnessOutputs : MatcherOutputs :=
  { logits := [[[0, 0], [0, 0]]],
    pred_boxes := [[{ cx := 0, cy := 0, w := 0, h := 0 },
      { cx := 0, cy := 0, w := 0, h := 0 }]] }

/-- Concrete targets (one batch element with no ground-truth boxes) used by
the C1 witness. -/
def c1WitnessTargets : List DetrTarget :=
  [{ class_labels := [], boxes := [] }]

/- ### SetCriterion (modeling_detr.py) -/

/-- The base names of the loss-dictionary keys.  The Python dictionary uses
strings and suffixes auxiliary-layer entries with `+ f"_{i}"`; since the base
names contain no trailing indices, that suffixing is injective, and the pair
`(base, optional layer index)` models the string keys faithfully. -/
inductive LossKeyBase
  | loss_ce
  | cardinality_error
  | loss_bbox
  | loss_giou
  | loss_mask
  | loss_dice
deriving DecidableEq, Repr

/-- A loss-dictionary key: base name plus optional auxiliary-layer index
(`none` = final decoder layer). -/
abbrev LossKey := LossKeyBase × Option ℕ

/-- Outputs handed to `SetCriterion.forward`: final-layer logits and boxes
plus, optionally, one outputs entry per intermediate decoder layer. -/
structure CriterionOutputs where
  logits : List (List (List ℚ))
  pred_boxes : List (List CenterBox)
  auxiliary_outputs : Option (List MatcherOutputs)
deriving DecidableEq, Repr

/-- `outputs_without_aux`, as handed to the matcher and the loss terms. -/
def CriterionOutputs.withoutAux (o : CriterionOutputs) : MatcherOutputs :=
  { logits := o.logits, pred_boxes := o.pred_boxes }

/-- `SetCriterion` state: the matcher, the real class count, the no-object
down-weight and the configured loss names. -/
structure SetCriterion where
  matcher : HungarianMatcher
  num_classes : ℕ
  eos_coef : ℚ
  losses : List String
deriving Repr

/-- The `empty_weight` buffer: all ones except `eos_coef` at the no-object
class (the last index). -/
def empty_weight (c : SetCriterion) : List ℚ :=
  (List.range (c.num_classes + 1)).map (fun k => if k = c.num_classes then c.eos_coef else 1)

/-- The normalisation count of `SetCriterion.forward`: the total number of
target class labels across the batch, as a float, clamped below at 1
(`torch.clamp(num_boxes, min=1)`). -/
def criterionNumBoxes (targets : List DetrTarget) : ℚ :=
  maxQ 1 ((targets.map (fun t => (t.class_labels.length : ℚ))).sum)

/-- Scatter of matched target classes into one row of `target_classes`:
`target_classes[idx] = target_classes_o`, one batch row at a time. -/
def scatterRow (labels : List ℕ) (pairs : List (ℕ × ℕ)) (row : List ℕ) : List ℕ :=
  pairs.foldl (fun r p => r.set p.1 (labels.getD p.2 0)) row

/-- The `target_classes` matrix of `loss_labels`: filled with the no-object
class `num_classes`, with each matched query overwritten by its matched
target label. -/
def targetClasses (c : SetCriterion) (outputs : MatcherOutputs) (targets : List DetrTarget)
    (indices : List (List ℕ × List ℕ)) : List (List ℕ) :=
  (outputs.logits.zip (targets.zip indices)).map (fun p =>
    scatterRow p.2.1.class_labels (p.2.2.1.zip p.2.2.2) (p.1.map (fun _ => c.num_classes)))

/-- `F.cross_entropy(logits, target, weight)` with mean reduction: the
weighted average of per-cell negative log-softmax probabilities of the target
class, with the float `log` idealised by `logQ`. -/
def crossEntropyWeighted (logits : List (List (List ℚ))) (target : List (List ℕ))
    (w : List ℚ) : ℚ :=
  let cells := ((logits.zip target).map (fun p => p.1.zip p.2)).join
  let terms := cells.map (fun cell =>
    (w.getD cell.2 0, -(logQ ((softmaxRow cell.1).getD cell.2 0))))
  ((terms.map (fun t => t.1 * t.2)).sum) / ((terms.map Prod.fst).sum)

/-- `SetCriterion.loss_labels`: the weighted cross-entropy of the logits
against the scattered target classes, stored under `loss_ce`. -/
def loss_labels (c : SetCriterion) (outputs : MatcherOutputs) (targets : List DetrTarget)
    (indices : List (List ℕ × List ℕ)) : List (LossKeyBase × Option ℚ) :=
  [(LossKeyBase.loss_ce,
    some (crossEntropyWeighted outputs.logits (targetClasses c outputs targets indices)
      (empty_weight c)))]

/-- `SetCriterion.loss_cardinality`: the mean absolute error between the
per-item count of queries whose argmax is not the no-object (last) class and
the per-item target count, stored under `cardinality_error`. -/
def loss_cardinality (outputs : MatcherOutputs) (targets : List DetrTarget) :
    List (LossKeyBase × Option ℚ) :=
  let last := numClasses outputs - 1
  let card_pred := outputs.logits.map (fun rows =>
    ((rows.filter (fun r => decide (argmaxIdx r ≠ last))).length : ℚ))
  let tgt_lengths := targets.map (fun t => (t.class_labels.length : ℚ))
  let card_err :=
    ((card_pred.zip tgt_lengths).map (fun p => |p.1 - p.2|)).sum / (card_pred.length : ℚ)
  [(LossKeyBase.cardinality_error, some card_err)]

/-- `SetCriterion.loss_boxes`: the summed L1 distance between matched
predicted and target boxes divided by `num_boxes`, and the summed
`1 − diag(GIoU)` divided by `num_boxes`.  The degenerate-box assert of
`generalized_box_iou` propagates as an error, and a NaN GIoU entry makes the
GIoU loss NaN (`none`). -/
def loss_boxes (outputs : MatcherOutputs) (targets : List DetrTarget)
    (indices : List (List ℕ × List ℕ)) (num_boxes : ℚ) :
    Except String (List (LossKeyBase × Option ℚ)) :=
  let src_boxes := ((outputs.pred_boxes.zip indices).map (fun p =>
    p.2.1.map (fun i => p.1.getD i { cx := 0, cy := 0, w := 0, h := 0 }))).join
  let target_boxes := ((targets.zip indices).map (fun p =>
    p.2.2.map (fun j => p.1.boxes.getD j { cx := 0, cy := 0, w := 0, h := 0 }))).join
  let loss_bbox := ((src_boxes.zip target_boxes).map (fun p => l1CenterBox p.1 p.2)).sum
  match generalized_box_iou (src_boxes.map center_to_corners_format)
      (target_boxes.map center_to_corners_format) with
  | .error e => .error e
  | .ok gm =>
      let diag := (List.range src_boxes.length).map (fun k => (gm.getD k []).getD k none)
      let loss_giou := (sequenceRow diag).map (fun l => (l.map (fun g => 1 - g)).sum)
      .ok [(LossKeyBase.loss_bbox, some (loss_bbox / num_boxes)),
        (LossKeyBase.loss_giou, loss_giou.map (fun s => s / num_boxes))]

/-- `SetCriterion.loss_masks` resamples predicted masks with bilinear
interpolation; that tensor resampling is outside the scope of the claims
(which all exclude the mask loss), so the mask branch is modelled as a
failure and every theorem below keeps `masks` out of the configured
losses, matching `DetrForObjectDetection`. -/
def loss_masks_unmodelled : Except String (List (LossKeyBase × Option ℚ)) :=
  .error "mask loss not modelled"

/-- `SetCriterion.get_loss`: dispatch on the loss name; an unknown name is
the failed `assert loss in loss_map`. -/
def get_loss (c : SetCriterion) (loss : String) (outputs : MatcherOutputs)
    (targets : List DetrTarget) (indices : List (List ℕ × List ℕ)) (num_boxes : ℚ) :
    Except String (List (LossKeyBase × Option ℚ)) :=
  if loss = "labels" then .ok (loss_labels c outputs targets indices)
  else if loss = "cardinality" then .ok (loss_cardinality outputs targets)
  else if loss = "boxes" then loss_boxes outputs targets indices num_boxes
  else if loss = "masks" then loss_masks_unmodelled
  else .error "Loss not supported"

/-- The base loss loop of `SetCriterion.forward`:
`for loss in self.losses: losses.update(self.get_loss(...))` (keys are
pairwise distinct, so the dict update is an append). -/
def lossesFor (c : SetCriterion) (losses : List String) (outputs : MatcherOutputs)
    (targets : List DetrTarget) (indices : List (List ℕ × List ℕ)) (num_boxes : ℚ) :
    Except String (List (LossKeyBase × Option ℚ)) :=
  match losses with
  | [] => .ok []
  | l :: rest => do
      let v ← get_loss c l outputs targets indices num_boxes
      let vs ← lossesFor c rest outputs targets indices num_boxes
      .ok (v ++ vs)

/-- The auxiliary loss loop body of `SetCriterion.forward`: identical to the
base loop except that the mask loss is skipped
(`if loss == "masks": continue`). -/
def lossesForAux (c : SetCriterion) (losses : List String) (outputs : MatcherOutputs)
    (targets : List DetrTarget) (indices : List (List ℕ × List ℕ)) (num_boxes : ℚ) :
    Except String (List (LossKeyBase × Option ℚ)) :=
  match losses with
  | [] => .ok []
  | l :: rest =>
      if l = "masks" then lossesForAux c rest outputs targets indices num_boxes
      else do
        let v ← get_loss c l outputs targets indices num_boxes
        let vs ← lossesForAux c rest outputs targets indices num_boxes
        .ok (v ++ vs)

/-- The loop over enumerated auxiliary outputs in `SetCriterion.forward`:
each intermediate layer gets a fresh matching on its own outputs, the
configured losses minus masks, and keys suffixed by the layer index. -/
def auxLoop (c : SetCriterion) (targets : List DetrTarget) (num_boxes : ℚ) :
    List (ℕ × MatcherOutputs) → Except String (List (LossKey × Option ℚ))
  | [] => .ok []
  | p :: rest => do
      let idx ← c.matcher.forward p.2 targets
      let l ← lossesForAux c c.losses p.2 targets idx num_boxes
      let r ← auxLoop c targets num_boxes rest
      .ok (l.map (fun kv => ((kv.1, some p.1), kv.2)) ++ r)

/-- `SetCriterion.forward`: match the final-layer outputs, compute the
clamped normalisation count, compute every configured loss, and, when
auxiliary outputs are present, repeat the losses (masks excluded) per
intermediate layer with a fresh matching, suffixing the keys with the layer
index. -/
def criterionForward (c : SetCriterion) (outputs : CriterionOutputs)
    (targets : List DetrTarget) : Except String (List (LossKey × Option ℚ)) := do
  let indices ← c.matcher.forward outputs.withoutAux targets
  let num_boxes := criterionNumBoxes targets
  let base ← lossesFor c c.losses outputs.withoutAux targets indices num_boxes
  let baseK := base.map (fun kv => ((kv.1, (none : Option ℕ)), kv.2))
  match outputs.auxiliary_outputs with
  | none => pure baseK
  | some auxs => do
      let auxK ← auxLoop c targets num_boxes auxs.enum
      pure (baseK ++ auxK)

/-- The weight dictionary built by `DetrForObjectDetection.forward`:
`loss_ce ↦ 1`, `loss_bbox ↦ bbox_loss_coefficient`,
`loss_giou ↦ giou_loss_coefficient`, repeated for each auxiliary suffix
`i < decoder_layers - 1` (`n` stands for `decoder_layers - 1`).  No weight is
configured for the cardinality indicator. -/
def detrWeightDict (bbox_coef giou_coef : ℚ) (n : ℕ) : List (LossKey × ℚ) :=
  [((LossKeyBase.loss_ce, none), 1), ((LossKeyBase.loss_bbox, none), bbox_coef),
    ((LossKeyBase.loss_giou, none), giou_coef)]
    ++ (List.range n).flatMap (fun i =>
      [((LossKeyBase.loss_ce, some i), 1), ((LossKeyBase.loss_bbox, some i), bbox_coef),
        ((LossKeyBase.loss_giou, some i), giou_coef)])

/-- NaN-propagating sum of float terms (`none` models NaN). -/
def nanSum : List (Option ℚ) → Option ℚ
  | [] => some 0
  | o :: rest => o.bind (fun v => (nanSum rest).map (fun s => v + s))

/-- Dictionary lookup (`k in weight_dict` / `weight_dict[k]`). -/
def weightLookup (w : List (LossKey × ℚ)) (k : LossKey) : Option ℚ :=
  match w with
  | [] => none
  | p :: rest => if p.1 = k then some p.2 else weightLookup rest k

/-- The total loss of `DetrForObjectDetection.forward`:
`sum(loss_dict[k] * weight_dict[k] for k in loss_dict.keys() if k in
weight_dict)` — terms without a configured weight are dropped. -/
def detrTotalLoss (bbox_coef giou_coef : ℚ) (n : ℕ)
    (loss_dict : List (LossKey × Option ℚ)) : Option ℚ :=
  nanSum ((loss_dict.filter (fun kv =>
      (weightLookup (detrWeightDict bbox_coef giou_coef n) kv.1).isSome)).map
    (fun kv => kv.2.map (fun v =>
      v * (weightLookup (detrWeightDict bbox_coef giou_coef n) kv.1).getD 0)))

/-- The criterion configuration used by the concrete C4 instances: the
object-detection loss set of `DetrForObjectDetection.forward`. -/
def c4Criterion : SetCriterion :=
  { matcher := { class_cost := 1, bbox_cost := 5, giou_cost := 2 },
    num_classes := 1, eos_coef := 1, losses := ["labels", "boxes", "cardinality"] }

/-- One intermediate decoder layer's outputs for the concrete C4 instances:
one query, two classes, an all-zero box. -/
def c4AuxLayer : MatcherOutputs :=
  { logits := [[[0, 0]]], pred_boxes := [[{ cx := 0, cy := 0, w := 0, h := 0 }]] }

/-- Criterion outputs with one auxiliary layer, for the concrete C4
instances. -/
def c4Outputs : CriterionOutputs :=
  { logits := [[[0, 0]]], pred_boxes := [[{ cx := 0, cy := 0, w := 0, h := 0 }]],
    auxiliary_outputs := some [c4AuxLayer] }

/-- One batch element without ground-truth boxes, for the concrete C4
instances. -/
def c4Targets : List DetrTarget :=
  [{ class_labels := [], boxes := [] }]

/-- The loss dictionary `criterionForward` produces on the concrete C4
instance: cross-entropy, box and GIoU losses plus the cardinality indicator,
for the final layer and for auxiliary layer 0. -/
def c4Result : List (LossKey × Option ℚ) :=
  [((LossKeyBase.loss_ce, none), some (131 / 192)),
    ((LossKeyBase.loss_bbox, none), some 0),
    ((LossKeyBase.loss_giou, none), some 0),
    ((LossKeyBase.cardinality_error, none), some 1),
    ((LossKeyBase.loss_ce, some 0), some (131 / 192)),
    ((LossKeyBase.loss_bbox, some 0), some 0),
    ((LossKeyBase.loss_giou, some 0), some 0),
    ((LossKeyBase.cardinality_error, some 0), some 1)]

/- ### Token-classification pipeline (pipelines/token_classification.py) -/

/-- The aggregation strategies of the token-classification pipeline. -/
inductive AggregationStrategy
  | none
  | simple
  | first
  | average
  | max
deriving DecidableEq, Repr

/-- The aggregation-strategy validation performed by
`TokenClassificationPipeline.__init__` once the strategy is fixed: FIRST,
MAX and AVERAGE demand a fast (offset-mapping-capable) tokenizer and raise
`ValueError` otherwise; NONE and SIMPLE are accepted with any tokenizer. -/
def tokenClassificationInitCheck (strategy : AggregationStrategy)
    (tokenizer_is_fast : Bool) : Except String AggregationStrategy :=
  if (strategy = .first ∨ strategy = .max ∨ strategy = .average) ∧
      tokenizer_is_fast = false then
    .error "Slow tokenizers cannot handle subwords"
  else
    .ok strategy

/-- A concrete codebook state with dead codes (zero EMA cluster sizes) but a
zero threshold, used by the C8 witness. -/
def codebookThresholdZero : EuclideanCodebook :=
  { decay := 99 / 100, epsilon := 1 / 100000, codebook_size := 2, kmeans_iters := 10,
    threshold_ema_dead_code := 0, inited := true, cluster_size := [0, 0],
    embed := [[1, 2], [3, 4]], embed_avg := [[1, 2], [3, 4]] }

section C6Theorems

/-- maxQ of a value with itself. -/
theorem maxQ_self (a : ℚ) : maxQ a a = a := by
  simp [maxQ]

/-- minQ of a value with itself. -/
theorem minQ_self (a : ℚ) : minQ a a = a := by
  simp [minQ]

/-- The clamp `maxQ x 0` is the identity on nonnegative values. -/
theorem maxQ_zero_of_nonneg {x : ℚ} (h : 0 ≤ x) : maxQ x 0 = x := by
  unfold maxQ
  split
  · linarith
  · rfl

/-- C6 counterexample: the all-zero box passes the well-formedness assert of
`generalized_box_iou` (it only requires `max corner >= min corner`), yet its
self-GIoU is the NaN produced by `0 / 0` (modelled `none`), not `1`.  So
`generalized_box_iou(a, a) == 1` fails for this well-formed box. -/
theorem C6_giou_self_counterexample :
    isWellFormedBox { x0 := 0, y0 := 0, x1 := 0, y1 := 0 } = true ∧
      generalized_box_iou [{ x0 := 0, y0 := 0, x1 := 0, y1 := 0 }]
          [{ x0 := 0, y0 := 0, x1 := 0, y1 := 0 }] ≠
        Except.ok [[some 1]] := by
  constructor
  · simp [isWellFormedBox]
  · have h : generalized_box_iou [{ x0 := 0, y0 := 0, x1 := 0, y1 := 0 }]
        [{ x0 := 0, y0 := 0, x1 := 0, y1 := 0 }] = Except.ok [[none]] := by
      norm_num [generalized_box_iou, generalized_box_iou_pair, box_iou_pair,
        isWellFormedBox, box_area, safeDiv, maxQ, minQ]
    rw [h]
    simp

/-- C6 (amended): for every box `a` in corner format with positive width and
height (`x0 < x1` and `y0 < y1`), `generalized_box_iou(a, a)` succeeds and
yields exactly `1`: the self-IoU of a positive-area box is `1` and the GIoU
enclosing-area penalty vanishes, so GIoU reduces to IoU.  (For zero-area
well-formed boxes the result is the NaN of `0 / 0` instead, see the
counterexample.) -/
theorem C6_giou_self_eq_one (b : CornersBox) (hx : b.x0 < b.x1) (hy : b.y0 < b.y1) :
    generalized_box_iou [b] [b] = Except.ok [[some 1]] := by
  have hA : (0 : ℚ) < (b.x1 - b.x0) * (b.y1 - b.y0) :=
    mul_pos (by linarith) (by linarith)
  have hAne : (b.x1 - b.x0) * (b.y1 - b.y0) ≠ 0 := ne_of_gt hA
  have hwf : isWellFormedBox b = true := by
    simp only [isWellFormedBox, Bool.and_eq_true, decide_eq_true_eq]
    exact ⟨le_of_lt hx, le_of_lt hy⟩
  have h1 : maxQ (b.x1 - b.x0) 0 = b.x1 - b.x0 := maxQ_zero_of_nonneg (by linarith)
  have h2 : maxQ (b.y1 - b.y0) 0 = b.y1 - b.y0 := maxQ_zero_of_nonneg (by linarith)
  have hpair : box_iou_pair b b = some (1, box_area b) := by
    simp only [box_iou_pair, maxQ_self, minQ_self, h1, h2, box_area]
    have hunion : (b.x1 - b.x0) * (b.y1 - b.y0) + (b.x1 - b.x0) * (b.y1 - b.y0) -
        (b.x1 - b.x0) * (b.y1 - b.y0) = (b.x1 - b.x0) * (b.y1 - b.y0) := by ring
    rw [hunion, safeDiv, if_neg hAne, div_self hAne]
    rfl
  have hgpair : generalized_box_iou_pair b b = some 1 := by
    simp only [generalized_box_iou_pair, hpair, Option.bind_eq_bind, Option.some_bind,
      maxQ_self, minQ_self, h1, h2, box_area]
    have hsub : (b.x1 - b.x0) * (b.y1 - b.y0) - (b.x1 - b.x0) * (b.y1 - b.y0) = 0 := by
      ring
    rw [hsub, safeDiv, if_neg hAne, zero_div]
    simp
  simp only [generalized_box_iou, List.all_cons, List.all_nil, hwf, Bool.and_true,
    Bool.and_self, if_true, List.map_cons, List.map_nil, hgpair]

/-- C6 witness: the amended theorem applied to the unit box. -/
theorem C6_giou_self_witness :
    generalized_box_iou [{ x0 := 0, y0 := 0, x1 := 1, y1 := 1 }]
        [{ x0 := 0, y0 := 0, x1 := 1, y1 := 1 }] = Except.ok [[some 1]] :=
  C6_giou_self_eq_one { x0 := 0, y0 := 0, x1 := 1, y1 := 1 } (by norm_num) (by norm_num)

end C6Theorems

section EncodecTheorems

/-- C8: when `threshold_ema_dead_code == 0`, `expire_codes_` returns without
touching the module: the codebook embeddings and every other buffer are
unchanged, whatever the EMA cluster sizes and the batch are. -/
theorem C8_expire_codes_noop (rand : List ℕ) (self : EuclideanCodebook)
    (batch_samples : List Vec) (h : self.threshold_ema_dead_code = 0) :
    expire_codes_ rand self batch_samples = self := by
  simp [expire_codes_, h]

/-- C8 witness: a codebook whose every cluster size is below any positive
threshold is still left untouched because its threshold is `0`. -/
theorem C8_expire_codes_noop_witness :
    expire_codes_ [0, 1] codebookThresholdZero [[5, 5], [6, 6]] = codebookThresholdZero :=
  C8_expire_codes_noop [0, 1] codebookThresholdZero [[5, 5], [6, 6]] rfl

/-- The encode loop runs one stage per layer handed to it. -/
theorem rvqEncodeLoop_length (cbs : List (List Vec)) (x : Frames) :
    (rvqEncodeLoop cbs x).length = cbs.length := by
  induction cbs generalizing x with
  | nil => rfl
  | cons cb rest ih => simp [rvqEncodeLoop, ih]

/-- C10: `ResidualVectorQuantization.encode(x, n_q)` runs exactly
`min(n_q, num_quantizers)` stages — a request larger than the number of
constructed layers is silently capped by the slice `self.layers[:n_q]` —
and returns one index array per stage run; `n_q = None` and `n_q = 0` both
fall back to all configured layers. -/
theorem C10_rvq_encode_stage_count (layers : List (List Vec)) (x : Frames)
    (h : 0 < layers.length) :
    (∀ k : ℕ, 0 < k → (rvqEncode layers x (some k)).length = min k layers.length)
      ∧ (rvqEncode layers x none).length = layers.length
      ∧ (rvqEncode layers x (some 0)).length = layers.length := by
  refine ⟨fun k hk => ?_, ?_, ?_⟩
  · match k, hk with
    | k + 1, _ =>
      simp [rvqEncode, rvqEncodeLoop_length, List.length_take]
  · simp [rvqEncode, rvqEncodeLoop_length, List.length_take]
  · simp [rvqEncode, rvqEncodeLoop_length, List.length_take]

/-- C10 witness: with two configured layers, requesting five stages runs two,
and both `None` and `0` run all two. -/
theorem C10_rvq_encode_stage_count_witness :
    (rvqEncode [[[0]], [[1]]] [[1 / 2]] (some 5)).length = 2
      ∧ (rvqEncode [[[0]], [[1]]] [[1 / 2]] none).length = 2
      ∧ (rvqEncode [[[0]], [[1]]] [[1 / 2]] (some 0)).length = 2 := by
  obtain ⟨h1, h2, h3⟩ :=
    C10_rvq_encode_stage_count [[[0]], [[1]]] [[1 / 2]] (by norm_num)
  exact ⟨by rw [h1 5 (by norm_num)]; decide, h2, h3⟩

/-- C3 counterexample: with the source's default configuration (`n_q = 8`,
`bins = 1024`) at frame rate 75 and a bandwidth of 24 kbps, the code returns
`32` stages — more than the configured maximum of 8 quantizers, refuting the
claim that the returned stage count never exceeds `n_q`. -/
theorem C3_num_quantizers_counterexample :
    get_num_quantizers_for_bandwidth rvqDefault 75 (some 24) = 32
      ∧ ¬ get_num_quantizers_for_bandwidth rvqDefault 75 (some 24) ≤ rvqDefault.n_q := by
  have h : get_num_quantizers_for_bandwidth rvqDefault 75 (some 24) = 32 := by
    have hlog : Nat.log2 (1024 : ℕ) = 10 := by norm_num [Nat.log2]
    have : (⌊(24 : ℚ) * 1000 / ((10 : ℚ) * 75)⌋ : ℤ) = 32 := by norm_num
    simp [get_num_quantizers_for_bandwidth, get_bandwidth_per_quantizer, rvqDefault, hlog]
    norm_num [this]
    decide
  exact ⟨h, by rw [h]; norm_num [rvqDefault]⟩

/-- C3 (amended): for a power-of-two codebook (`bins = 2^k`, `k ≥ 1`) and a
positive frame rate, a strictly positive bandwidth yields
`max(1, floor(bandwidth*1000 / (log2(bins) * frame_rate)))` stages — with no
cap at the configured `n_q` — while `None` or a non-positive bandwidth yields
the configured `n_q`. -/
theorem C3_num_quantizers_formula (self : ResidualVectorQuantizer) (frame_rate k : ℕ)
    (hbins : self.bins = 2 ^ k) (hk : 1 ≤ k) (hfr : 0 < frame_rate) :
    (∀ bw : ℚ, 0 < bw →
        get_num_quantizers_for_bandwidth self frame_rate (some bw) =
          (max 1 ⌊bw * 1000 / ((k : ℚ) * (frame_rate : ℚ))⌋).toNat)
      ∧ get_num_quantizers_for_bandwidth self frame_rate none = self.n_q
      ∧ (∀ bw : ℚ, bw ≤ 0 →
          get_num_quantizers_for_bandwidth self frame_rate (some bw) = self.n_q) := by
  have hlog : Nat.log2 self.bins = k := by
    rw [hbins, Nat.log2_eq_log_two]
    exact Nat.log_pow (by norm_num) k
  refine ⟨fun bw hbw => ?_, rfl, fun bw hbw => ?_⟩
  · simp [get_num_quantizers_for_bandwidth, get_bandwidth_per_quantizer, hlog, if_pos hbw]
  · simp [get_num_quantizers_for_bandwidth, get_bandwidth_per_quantizer,
      if_neg (not_lt.mpr hbw)]

/-- C3 witness: the default configuration at frame rate 75 with 6 kbps keeps
`floor(6000 / 750) = 8` stages, and without a bandwidth returns `n_q = 8`. -/
theorem C3_num_quantizers_formula_witness :
    get_num_quantizers_for_bandwidth rvqDefault 75 (some 6) = 8
      ∧ get_num_quantizers_for_bandwidth rvqDefault 75 none = 8 := by
  obtain ⟨h1, h2, _⟩ :=
    C3_num_quantizers_formula rvqDefault 75 10 (by norm_num [rvqDefault]) (by norm_num)
      (by norm_num)
  constructor
  · rw [h1 6 (by norm_num)]
    norm_num
    decide
  · rw [h2]
    norm_num [rvqDefault]

end EncodecTheorems

section C2Lemmas

/-- Unfolding of `addVec` on cons cells. -/
theorem addVec_cons (x y : ℚ) (xs ys : Vec) :
    addVec (x :: xs) (y :: ys) = (x + y) :: addVec xs ys := rfl

/-- Unfolding of `subVec` on cons cells. -/
theorem subVec_cons (x y : ℚ) (xs ys : Vec) :
    subVec (x :: xs) (y :: ys) = (x - y) :: subVec xs ys := rfl

/-- Unfolding of `subFrames` on cons cells. -/
theorem subFrames_cons (a b : Vec) (x y : Frames) :
    subFrames (a :: x) (b :: y) = subVec a b :: subFrames x y := rfl

/-- Unfolding of `addFrames` on cons cells. -/
theorem addFrames_cons (a b : Vec) (x y : Frames) :
    addFrames (a :: x) (b :: y) = addVec a b :: addFrames x y := rfl

/-- Vector addition is associative (also under zip truncation). -/
theorem addVec_assoc (a : Vec) : ∀ b c : Vec, addVec (addVec a b) c = addVec a (addVec b c) := by
  induction a with
  | nil => intro b c; rfl
  | cons x xs ih =>
    intro b c
    cases b with
    | nil => rfl
    | cons y ys =>
      cases c with
      | nil => rfl
      | cons z zs =>
        rw [addVec_cons, addVec_cons, addVec_cons, addVec_cons]
        rw [ih ys zs]
        congr 1
        ring

/-- Subtracting a sum subtracts the summands in turn. -/
theorem subVec_addVec (a : Vec) : ∀ b c : Vec, subVec a (addVec b c) = subVec (subVec a b) c := by
  induction a with
  | nil => intro b c; rfl
  | cons x xs ih =>
    intro b c
    cases b with
    | nil => rfl
    | cons y ys =>
      cases c with
      | nil => rfl
      | cons z zs =>
        rw [addVec_cons, subVec_cons, subVec_cons, subVec_cons]
        rw [ih ys zs]
        congr 1
        ring

/-- Frame addition is associative. -/
theorem addFrames_assoc (a : List Vec) :
    ∀ b c : Frames, addFrames (addFrames a b) c = addFrames a (addFrames b c) := by
  induction a with
  | nil => intro b c; rfl
  | cons x xs ih =>
    intro b c
    cases b with
    | nil => rfl
    | cons y ys =>
      cases c with
      | nil => rfl
      | cons z zs =>
        rw [addFrames_cons, addFrames_cons, addFrames_cons, addFrames_cons, ih ys zs,
          addVec_assoc]

/-- Subtracting a frame sum subtracts the summands in turn. -/
theorem subFrames_addFrames (a : List Vec) :
    ∀ b c : Frames, subFrames a (addFrames b c) = subFrames (subFrames a b) c := by
  induction a with
  | nil => intro b c; rfl
  | cons x xs ih =>
    intro b c
    cases b with
    | nil => rfl
    | cons y ys =>
      cases c with
      | nil => rfl
      | cons z zs =>
        rw [addFrames_cons, subFrames_cons, subFrames_cons, subFrames_cons, ih ys zs,
          subVec_addVec]

/-- Folding `addFrames` from an added seed pulls the first summand out. -/
theorem foldl_addFrames_of_addFrames (ls : List Frames) :
    ∀ a b : Frames, ls.foldl addFrames (addFrames a b) = addFrames a (ls.foldl addFrames b) := by
  induction ls with
  | nil => intro a b; rfl
  | cons c cs ih =>
    intro a b
    simp only [List.foldl_cons]
    rw [addFrames_assoc, ih]

/-- `sumFrames` of a nonempty tail splits off the head. -/
theorem sumFrames_cons_of_ne_nil (f : Frames) (L : List Frames) (hL : L ≠ []) :
    sumFrames (f :: L) = addFrames f (sumFrames L) := by
  cases L with
  | nil => exact absurd rfl hL
  | cons l ls =>
    show (l :: ls).foldl addFrames f = addFrames f (ls.foldl addFrames l)
    simp only [List.foldl_cons]
    exact foldl_addFrames_of_addFrames ls f l

/-- Subtracting an image of `x` under a map is a pointwise map on `x`. -/
theorem subFrames_map_self (g : Vec → Vec) (x : Frames) :
    subFrames x (x.map g) = x.map (fun v => subVec v (g v)) := by
  induction x with
  | nil => rfl
  | cons v t ih => rw [List.map_cons, subFrames_cons, ih, List.map_cons]

/-- The first-maximum index is in range for nonempty lists. -/
theorem argmaxIdx_lt_length (l : List ℚ) (h : l ≠ []) : argmaxIdx l < l.length := by
  induction l with
  | nil => exact absurd rfl h
  | cons a t ih =>
    cases t with
    | nil => simp [argmaxIdx]
    | cons b r =>
      simp only [argmaxIdx]
      split
      · have := ih (by simp)
        simpa using Nat.succ_lt_succ this
      · simp

/-- The element at the first-maximum index dominates all entries. -/
theorem argmaxIdx_spec (l : List ℚ) : ∀ k, k < l.length → l.getD k 0 ≤ l.getD (argmaxIdx l) 0 := by
  induction l with
  | nil => intro k hk; simp at hk
  | cons a t ih =>
    cases t with
    | nil =>
      intro k hk
      have hk0 : k = 0 := Nat.lt_one_iff.mp (by simpa using hk)
      subst hk0
      simp [argmaxIdx]
    | cons b r =>
      intro k hk
      simp only [argmaxIdx]
      split
      · rename_i hlt
        cases k with
        | zero => simpa using le_of_lt hlt
        | succ k =>
          simp only [List.getD_cons_succ]
          exact ih k (by simpa using Nat.lt_of_succ_lt_succ hk)
      · rename_i hge
        push_neg at hge
        cases k with
        | zero => simp
        | succ k =>
          simp only [List.getD_cons_succ, List.getD_cons_zero]
          exact le_trans (ih k (by simpa using Nat.lt_of_succ_lt_succ hk)) hge

/-- Dot product against an all-zero vector vanishes. -/
theorem dotQ_replicate_zero (v : Vec) : ∀ n : ℕ, dotQ v (List.replicate n 0) = 0 := by
  induction v with
  | nil => intro n; rfl
  | cons x xs ih =>
    intro n
    cases n with
    | zero => rfl
    | succ m =>
      show dotQ (x :: xs) (0 :: List.replicate m 0) = 0
      simp only [dotQ, List.zip_cons_cons, List.map_cons, List.sum_cons] at ih ⊢
      rw [mul_zero, zero_add]
      exact ih m

/-- The squared norm of an all-zero vector vanishes. -/
theorem sqNormQ_replicate_zero (n : ℕ) : sqNormQ (List.replicate n 0) = 0 :=
  dotQ_replicate_zero (List.replicate n 0) n

/-- Length of a pointwise difference. -/
theorem subVec_length (a b : Vec) : (subVec a b).length = min a.length b.length := by
  simp [subVec]

/-- Unfolding of `dotQ` on cons cells. -/
theorem dotQ_cons (x y : ℚ) (xs ys : Vec) :
    dotQ (x :: xs) (y :: ys) = x * y + dotQ xs ys := by
  simp [dotQ]

/-- Unfolding of `sqNormQ` on cons cells. -/
theorem sqNormQ_cons (x : ℚ) (xs : Vec) :
    sqNormQ (x :: xs) = x * x + sqNormQ xs := by
  rw [sqNormQ, dotQ_cons]
  rfl

/-- Law of cosines for the squared norm of a difference, for equal-length
vectors. -/
theorem sqNormQ_subVec (a : Vec) :
    ∀ b : Vec, a.length = b.length →
      sqNormQ (subVec a b) = sqNormQ a - 2 * dotQ a b + sqNormQ b := by
  induction a with
  | nil =>
    intro b hb
    cases b with
    | nil => simp [sqNormQ, dotQ, subVec]
    | cons y ys => simp at hb
  | cons x xs ih =>
    intro b hb
    cases b with
    | nil => simp at hb
    | cons y ys =>
      have hlen : xs.length = ys.length := by simpa using hb
      rw [subVec_cons, sqNormQ_cons, ih ys hlen, sqNormQ_cons, dotQ_cons, sqNormQ_cons]
      ring

/-- The vector `quantizeVec` selects is a codebook entry. -/
theorem dequantizeVec_quantizeVec_mem (embed : List Vec) (v : Vec) (h : embed ≠ []) :
    dequantizeVec embed (quantizeVec embed v) ∈ embed := by
  have hne : (embed.map (fun e => -(sqNormQ v - 2 * dotQ v e + sqNormQ e))) ≠ [] := by
    simpa using h
  have hlt := argmaxIdx_lt_length _ hne
  rw [List.length_map] at hlt
  rw [dequantizeVec, quantizeVec, List.getD_eq_getElem _ _ hlt]
  exact List.getElem_mem _

/-- One quantization step at a single time step never increases the squared
norm of the residual, provided the zero vector is available in the
codebook. -/
theorem sqNormQ_quantize_step_le (embed : List Vec) (v : Vec) (d : ℕ)
    (hv : v.length = d) (hne : embed ≠ []) (hdim : ∀ e ∈ embed, e.length = d)
    (hzero : List.replicate d 0 ∈ embed) :
    sqNormQ (subVec v (dequantizeVec embed (quantizeVec embed v))) ≤ sqNormQ v := by
  set f : Vec → ℚ := fun e => -(sqNormQ v - 2 * dotQ v e + sqNormQ e) with hf
  have hlne : embed.map f ≠ [] := by simpa using hne
  have hlt := argmaxIdx_lt_length (embed.map f) hlne
  have hlt2 : argmaxIdx (embed.map f) < embed.length := by simpa using hlt
  have hq : dequantizeVec embed (quantizeVec embed v) = embed[argmaxIdx (embed.map f)] := by
    rw [dequantizeVec, quantizeVec, ← hf, List.getD_eq_getElem _ _ hlt2]
  obtain ⟨k0, hk0, hk0e⟩ := List.getElem_of_mem hzero
  have hspec := argmaxIdx_spec (embed.map f) k0 (by simpa using hk0)
  rw [List.getD_eq_getElem _ _ (by simpa using hk0), List.getD_eq_getElem _ _ hlt,
    List.getElem_map, List.getElem_map, hk0e] at hspec
  have hzval : f (List.replicate d 0) = -(sqNormQ v) := by
    rw [hf]
    simp only [dotQ_replicate_zero v d, sqNormQ_replicate_zero, mul_zero, sub_zero, add_zero]
  rw [hzval] at hspec
  set q := embed[argmaxIdx (embed.map f)] with hqdef
  have hqmem : q ∈ embed := List.getElem_mem _
  have hqlen : q.length = d := hdim q hqmem
  have hsub := sqNormQ_subVec v q (by rw [hv, hqlen])
  rw [hq, hsub]
  have hle : -(sqNormQ v) ≤ -(sqNormQ v - 2 * dotQ v q + sqNormQ q) := hspec
  linarith

/-- `singleResidual` preserves the time-step dimension. -/
theorem singleResidual_length (cbs : List (List Vec)) (d : ℕ)
    (hcb : ∀ cb ∈ cbs, cb ≠ [] ∧ ∀ e ∈ cb, e.length = d) :
    ∀ v : Vec, v.length = d → (singleResidual cbs v).length = d := by
  induction cbs with
  | nil => intro v hv; exact hv
  | cons cb rest ih =>
    intro v hv
    obtain ⟨hne, hdim⟩ := hcb cb (by simp)
    have hqmem := dequantizeVec_quantizeVec_mem cb v hne
    have hqlen := hdim _ hqmem
    have hsub : (subVec v (dequantizeVec cb (quantizeVec cb v))).length = d := by
      rw [subVec_length, hv, hqlen, min_self]
    exact ih (fun c hc => hcb c (by simp [hc])) _ hsub

/-- `singleResidual` over an appended final stage is a single quantization
step on the residual of the earlier stages. -/
theorem singleResidual_append (cbs : List (List Vec)) (cb : List Vec) :
    ∀ v : Vec, singleResidual (cbs ++ [cb]) v =
      subVec (singleResidual cbs v)
        (dequantizeVec cb (quantizeVec cb (singleResidual cbs v))) := by
  induction cbs with
  | nil => intro v; rfl
  | cons c rest ih =>
    intro v
    simp only [List.cons_append, singleResidual]
    exact ih _

/-- Resolving the layer lookup of `rvqDecode` against the stage list: when
the indexed layer list agrees with the stage list, the enumerated decode is a
`zipWith`. -/
theorem enumFrom_decode_eq_zipWith (big : List (List Vec)) :
    ∀ (codes : List (List ℕ)) (cbs : List (List Vec)) (k : ℕ),
      cbs.length = codes.length →
      (∀ i, i < cbs.length → big.getD (k + i) [] = cbs.getD i []) →
      (codes.enumFrom k).map (fun p => codebookDecode (big.getD p.1 []) p.2) =
        List.zipWith codebookDecode cbs codes := by
  intro codes
  induction codes with
  | nil =>
    intro cbs k hlen _
    cases cbs with
    | nil => rfl
    | cons c ct => simp at hlen
  | cons c cs ih =>
    intro cbs k hlen hagree
    cases cbs with
    | nil => simp at hlen
    | cons cb cbt =>
      have henum : (c :: cs).enumFrom k = (k, c) :: cs.enumFrom (k + 1) := rfl
      rw [henum, List.map_cons, List.zipWith_cons_cons]
      congr 1
      · have h0 := hagree 0 (by simp)
        rw [Nat.add_zero] at h0
        rw [h0]
        rfl
      · refine ih cbt (k + 1) (by simpa using hlen) (fun i hi => ?_)
        have h := hagree (i + 1) (by simpa using Nat.succ_lt_succ hi)
        have harith : k + (i + 1) = k + 1 + i := by omega
        rw [harith] at h
        simpa using h

/-- Decoding the stage outputs of the encode loop with the matching
codebooks yields the per-stage quantized frames. -/
theorem zipWith_decode_encodeLoop (cbs : List (List Vec)) :
    ∀ x : Frames,
      List.zipWith codebookDecode cbs (rvqEncodeLoop cbs x) = quantizedLoop cbs x := by
  induction cbs with
  | nil => intro x; rfl
  | cons cb rest ih =>
    intro x
    show List.zipWith codebookDecode (cb :: rest)
        (codebookEncode cb x :: rvqEncodeLoop rest _) = _
    rw [List.zipWith_cons_cons, ih]
    rfl

/-- The encode loop stage outputs are nonempty iff some stage ran. -/
theorem quantizedLoop_ne_nil (cb : List Vec) (rest : List (List Vec)) (x : Frames) :
    quantizedLoop (cb :: rest) x ≠ [] := by
  simp [quantizedLoop]

/-- Subtracting the summed stage reconstructions from the input leaves, at
each time step, the residual of the per-step stage loop. -/
theorem subFrames_sumFrames_quantizedLoop (cbs : List (List Vec)) (hne : cbs ≠ []) :
    ∀ x : Frames,
      subFrames x (sumFrames (quantizedLoop cbs x)) = x.map (singleResidual cbs) := by
  induction cbs with
  | nil => exact absurd rfl hne
  | cons cb rest ih =>
    intro x
    have hq : codebookDecode cb (codebookEncode cb x) =
        x.map (fun v => dequantizeVec cb (quantizeVec cb v)) := by
      simp only [codebookDecode, codebookEncode, List.map_map]
      rfl
    cases rest with
    | nil =>
      show subFrames x (sumFrames [codebookDecode cb (codebookEncode cb x)]) = _
      have hsum : sumFrames [codebookDecode cb (codebookEncode cb x)] =
          codebookDecode cb (codebookEncode cb x) := rfl
      rw [hsum, hq, subFrames_map_self]
      rfl
    | cons cb2 rest2 =>
      have hrne : (cb2 :: rest2 : List (List Vec)) ≠ [] := by simp
      show subFrames x (sumFrames (codebookDecode cb (codebookEncode cb x) ::
          quantizedLoop (cb2 :: rest2)
            (subFrames x (codebookDecode cb (codebookEncode cb x))))) = _
      rw [sumFrames_cons_of_ne_nil _ _ (quantizedLoop_ne_nil _ _ _), subFrames_addFrames,
        ih hrne, hq, subFrames_map_self, List.map_map]
      rfl

/-- The squared reconstruction error after `n ≥ 1` stages is the summed
squared norm of the per-time-step residuals left by the first `n` stage
loops. -/
theorem reconErrSq_eq_sum_singleResidual (layers : List (List Vec)) (x : Frames) (n : ℕ)
    (hn : 0 < n) (hlayers : layers ≠ []) :
    reconErrSq layers x n =
      (x.map (fun v => sqNormQ (singleResidual (layers.take n) v))).sum := by
  cases n with
  | zero => exact absurd hn (lt_irrefl 0)
  | succ m =>
    have hcbs : layers.take (m + 1) ≠ [] := by
      cases layers with
      | nil => exact absurd rfl hlayers
      | cons l ls => simp [List.take]
    have hencode : rvqEncode layers x (some (m + 1)) =
        rvqEncodeLoop (layers.take (m + 1)) x := rfl
    have hlen : (layers.take (m + 1)).length =
        (rvqEncodeLoop (layers.take (m + 1)) x).length :=
      (rvqEncodeLoop_length _ _).symm
    have hagree : ∀ i, i < (layers.take (m + 1)).length →
        layers.getD (0 + i) [] = (layers.take (m + 1)).getD i [] := by
      intro i hi
      have hi2 : i < layers.length := by
        have := hi
        rw [List.length_take] at this
        omega
      rw [Nat.zero_add, List.getD_eq_getElem _ _ hi2, List.getD_eq_getElem _ _ hi]
      rw [List.getElem_take]
    have hdec : rvqDecode layers (rvqEncode layers x (some (m + 1))) =
        sumFrames (quantizedLoop (layers.take (m + 1)) x) := by
      rw [hencode, rvqDecode]
      rw [show (rvqEncodeLoop (layers.take (m + 1)) x).enum =
          (rvqEncodeLoop (layers.take (m + 1)) x).enumFrom 0 from rfl]
      rw [enumFrom_decode_eq_zipWith layers _ (layers.take (m + 1)) 0 hlen hagree,
        zipWith_decode_encodeLoop]
    rw [reconErrSq, hdec, subFrames_sumFrames_quantizedLoop _ hcbs, framesSqNorm,
      List.map_map]
    rfl

/-- Running more stages never increases the per-time-step squared residual
norm, when every stage codebook offers the zero vector. -/
theorem singleResidual_take_mono (layers : List (List Vec)) (d : ℕ)
    (hcb : ∀ cb ∈ layers, cb ≠ [] ∧ (∀ e ∈ cb, e.length = d) ∧ List.replicate d 0 ∈ cb)
    (v : Vec) (hv : v.length = d) :
    ∀ n m : ℕ, n ≤ m →
      sqNormQ (singleResidual (layers.take m) v) ≤
        sqNormQ (singleResidual (layers.take n) v) := by
  intro n m hnm
  induction m, hnm using Nat.le_induction with
  | base => exact le_refl _
  | succ m hnm ih =>
    by_cases hm : m < layers.length
    · have htake : layers.take (m + 1) = layers.take m ++ [layers[m]] := by
        rw [List.take_succ]
        congr
        rw [List.getElem?_eq_getElem hm]
        rfl
      rw [htake, singleResidual_append]
      obtain ⟨hne, hdim, hzero⟩ := hcb _ (List.getElem_mem hm)
      have hrlen : (singleResidual (layers.take m) v).length = d :=
        singleResidual_length _ d
          (fun cb hcbm => ⟨(hcb cb (List.mem_of_mem_take hcbm)).1,
            (hcb cb (List.mem_of_mem_take hcbm)).2.1⟩) v hv
      exact le_trans (sqNormQ_quantize_step_le _ _ d hrlen hne hdim hzero) ih
    · have heq : layers.take (m + 1) = layers.take m := by
        push_neg at hm
        rw [List.take_of_length_le hm, List.take_of_length_le (le_trans hm (Nat.le_succ m))]
      rw [heq]
      exact ih

end C2Lemmas

section C2Theorems

/-- C2 counterexample: with first-stage codebook `{[0]}` and second-stage
codebook `{[10]}`, the input `x = [[1]]` reconstructs with squared error `1`
after one stage but `81` after two stages, so the reconstruction error is not
monotonically non-increasing in the number of stages: the second stage,
forced to use a codebook whose only entry is far from the residual, moves the
reconstruction away from the input. -/
theorem C2_recon_error_counterexample :
    ¬ (reconErrSq [[[0]], [[10]]] [[1]] 2 ≤ reconErrSq [[[0]], [[10]]] [[1]] 1) := by
  have hne : ([[[0]], [[10]]] : List (List Vec)) ≠ [] := by simp
  have h1 : reconErrSq [[[0]], [[10]]] [[1]] 1 = 1 := by
    rw [reconErrSq_eq_sum_singleResidual _ _ 1 (by norm_num) hne]
    norm_num [singleResidual, quantizeVec, dequantizeVec, argmaxIdx, subVec, sqNormQ, dotQ]
  have h2 : reconErrSq [[[0]], [[10]]] [[1]] 2 = 81 := by
    rw [reconErrSq_eq_sum_singleResidual _ _ 2 (by norm_num) hne]
    norm_num [singleResidual, quantizeVec, dequantizeVec, argmaxIdx, subVec, sqNormQ, dotQ]
  rw [h1, h2]
  norm_num

/-- C2 (amended): for stage counts `1 ≤ n_q1 ≤ n_q2 ≤` the configured number
of stages, the squared reconstruction error `‖x - decode(encode(x, n_q))‖²`
of the residual vector quantizer is monotonically non-increasing in the
number of stages, provided every stage codebook is nonempty, dimensionally
consistent, and contains the zero vector (so that a stage can always avoid
worsening which the counterexample shows can otherwise happen).  `decode`
sums the per-stage dequantized codebook vectors for the stored indices. -/
theorem C2_recon_error_monotone (layers : List (List Vec)) (x : Frames)
    (d n_q1 n_q2 : ℕ) (hx : ∀ v ∈ x, v.length = d)
    (hcb : ∀ cb ∈ layers, cb ≠ [] ∧ (∀ e ∈ cb, e.length = d) ∧ List.replicate d 0 ∈ cb)
    (h1 : 0 < n_q1) (h12 : n_q1 ≤ n_q2) (h2 : n_q2 ≤ layers.length) :
    reconErrSq layers x n_q2 ≤ reconErrSq layers x n_q1 := by
  have hlayers : layers ≠ [] := by
    intro hnil
    rw [hnil] at h2
    simp at h2
    omega
  rw [reconErrSq_eq_sum_singleResidual layers x n_q2 (lt_of_lt_of_le h1 h12) hlayers,
    reconErrSq_eq_sum_singleResidual layers x n_q1 h1 hlayers]
  apply List.sum_le_sum
  intro v hv
  exact singleResidual_take_mono layers d hcb v (hx v hv) n_q1 n_q2 h12

/-- C2 witness: two stages with zero-containing codebooks reconstruct
`x = [[1/2]]` at least as well as one stage. -/
theorem C2_recon_error_monotone_witness :
    reconErrSq [[[0], [1]], [[0]]] [[1 / 2]] 2 ≤ reconErrSq [[[0], [1]], [[0]]] [[1 / 2]] 1 := by
  refine C2_recon_error_monotone [[[0], [1]], [[0]]] [[1 / 2]] 1 1 2 ?_ ?_ (by norm_num)
    (by norm_num) (by norm_num)
  · intro v hv
    simp only [List.mem_cons, List.not_mem_nil, or_false] at hv
    subst hv
    rfl
  · intro cb hcb
    simp only [List.mem_cons, List.not_mem_nil, or_false] at hcb
    rcases hcb with h | h
    · subst h
      refine ⟨by simp, ?_, by simp [List.replicate]⟩
      intro e he
      simp only [List.mem_cons, List.not_mem_nil, or_false] at he
      rcases he with h2 | h2 <;> subst h2 <;> rfl
    · subst h
      refine ⟨by simp, ?_, by simp [List.replicate]⟩
      intro e he
      simp only [List.mem_cons, List.not_mem_nil, or_false] at he
      subst he
      rfl

end C2Theorems

section C5C9Theorems

/-- C5 counterexample: a negative weight is not rejected — the matcher is
constructed successfully with `class_cost = -1` (the assert only rules out
all three weights being zero), refuting the claim that a negative weight
makes construction raise. -/
theorem C5_matcher_init_counterexample :
    HungarianMatcher.init (-1) 0 0 =
      Except.ok { class_cost := -1, bbox_cost := 0, giou_cost := 0 } := by
  norm_num [HungarianMatcher.init]

/-- C5 (amended): constructing a `HungarianMatcher` raises exactly when all
three supplied weights are zero; no sign check is performed, so negative
weights are accepted. -/
theorem C5_matcher_init_iff (c b g : ℚ) :
    (HungarianMatcher.init c b g = Except.error "All costs of the Matcher cannot be 0"
        ↔ c = 0 ∧ b = 0 ∧ g = 0)
      ∧ (HungarianMatcher.init c b g =
            Except.ok { class_cost := c, bbox_cost := b, giou_cost := g }
          ↔ ¬(c = 0 ∧ b = 0 ∧ g = 0)) := by
  unfold HungarianMatcher.init
  constructor <;> split <;> rename_i h <;> simp_all <;> tauto

/-- C9: the token-classification pipeline constructor raises exactly for the
FIRST, MAX and AVERAGE aggregation strategies combined with a tokenizer that
is not fast; SIMPLE and NONE are accepted with any tokenizer, and a fast
tokenizer accepts every strategy. -/
theorem C9_token_classification_strategy_check (strategy : AggregationStrategy)
    (fast : Bool) :
    (tokenClassificationInitCheck strategy fast =
          Except.error "Slow tokenizers cannot handle subwords"
        ↔ ((strategy = .first ∨ strategy = .max ∨ strategy = .average) ∧ fast = false))
      ∧ (tokenClassificationInitCheck strategy fast = Except.ok strategy
        ↔ ¬((strategy = .first ∨ strategy = .max ∨ strategy = .average) ∧ fast = false)) := by
  unfold tokenClassificationInitCheck
  constructor <;> split <;> rename_i h <;> simp_all

end C5C9Theorems

section C1Lemmas

/-- Members of `injections k pool` have length `k`. -/
theorem injections_length :
    ∀ (k : ℕ) (pool l : List ℕ), l ∈ injections k pool → l.length = k := by
  intro k
  induction k with
  | zero =>
    intro pool l hl
    simp only [injections, List.mem_singleton] at hl
    simp [hl]
  | succ k ih =>
    intro pool l hl
    simp only [injections, List.mem_flatMap, List.mem_map] at hl
    obtain ⟨c, _, r, hr, rfl⟩ := hl
    simp [ih _ _ hr]

/-- Members of `injections k pool` draw their elements from the pool. -/
theorem injections_subset :
    ∀ (k : ℕ) (pool l : List ℕ), l ∈ injections k pool → ∀ a ∈ l, a ∈ pool := by
  intro k
  induction k with
  | zero =>
    intro pool l hl a ha
    simp only [injections, List.mem_singleton] at hl
    subst hl
    simp at ha
  | succ k ih =>
    intro pool l hl a ha
    simp only [injections, List.mem_flatMap, List.mem_map] at hl
    obtain ⟨c, hc, r, hr, rfl⟩ := hl
    rcases List.mem_cons.mp ha with rfl | har
    · exact hc
    · exact List.mem_of_mem_erase (ih _ _ hr a har)

/-- Members of `injections k pool` are duplicate-free when the pool is. -/
theorem injections_nodup :
    ∀ (k : ℕ) (pool l : List ℕ), pool.Nodup → l ∈ injections k pool → l.Nodup := by
  intro k
  induction k with
  | zero =>
    intro pool l _ hl
    simp only [injections, List.mem_singleton] at hl
    simp [hl]
  | succ k ih =>
    intro pool l hpool hl
    simp only [injections, List.mem_flatMap, List.mem_map] at hl
    obtain ⟨c, hc, r, hr, rfl⟩ := hl
    refine List.nodup_cons.mpr ⟨?_, ih _ _ (hpool.erase c) hr⟩
    intro hcr
    have hce := injections_subset _ _ _ hr c hcr
    exact absurd rfl ((hpool.mem_erase_iff.mp hce).1)

/-- `injections` has a candidate whenever `k` pool elements are available. -/
theorem injections_ne_nil :
    ∀ (k : ℕ) (pool : List ℕ), k ≤ pool.length → injections k pool ≠ [] := by
  intro k
  induction k with
  | zero => intro pool _; simp [injections]
  | succ k ih =>
    intro pool h
    cases pool with
    | nil => simp at h
    | cons p ps =>
      have hk : k ≤ ps.length := by simpa using h
      obtain ⟨r, hr⟩ := List.exists_mem_of_ne_nil _ (ih ps hk)
      apply List.ne_nil_of_mem (a := p :: r)
      simp only [injections, List.mem_flatMap]
      refine ⟨p, by simp, ?_⟩
      rw [List.erase_cons_head]
      exact List.mem_map_of_mem _ hr

/-- The fold underlying `argminCost` returns the seed or a list member. -/
theorem argminCost_foldl_mem (cost : List ℕ → ℚ) :
    ∀ (cs : List (List ℕ)) (best : List ℕ),
      cs.foldl (fun b y => if cost y < cost b then y else b) best = best ∨
        cs.foldl (fun b y => if cost y < cost b then y else b) best ∈ cs := by
  intro cs
  induction cs with
  | nil => intro best; left; rfl
  | cons y ys ih =>
    intro best
    simp only [List.foldl_cons]
    rcases ih (if cost y < cost best then y else best) with h | h
    · rw [h]
      split
      · right; simp
      · left; rfl
    · right
      exact List.mem_cons_of_mem y h

/-- `argminCost` returns a candidate. -/
theorem argminCost_mem (cost : List ℕ → ℚ) (cands : List (List ℕ)) (c : List ℕ)
    (h : argminCost cost cands = some c) : c ∈ cands := by
  cases cands with
  | nil => simp [argminCost] at h
  | cons a as =>
    simp only [argminCost, Option.some.injEq] at h
    subst h
    rcases argminCost_foldl_mem cost as a with h | h
    · rw [h]; simp
    · exact List.mem_cons_of_mem a h

/-- `argminCost` succeeds on nonempty candidate lists. -/
theorem argminCost_isSome (cost : List ℕ → ℚ) (cands : List (List ℕ)) (h : cands ≠ []) :
    ∃ c, argminCost cost cands = some c := by
  cases cands with
  | nil => exact absurd rfl h
  | cons a as => exact ⟨_, rfl⟩

/-- `lsaLE` on an `n × m` problem with `n ≤ m`: the rows are `0..n-1` in
order and the columns are `n` pairwise-distinct indices below `m`. -/
theorem lsaLE_spec (M : List (List ℚ)) (n m : ℕ) (h : n ≤ m) :
    (lsaLE M n m).1 = List.range n ∧ (lsaLE M n m).2.length = n ∧
      (lsaLE M n m).2.Nodup ∧ ∀ j ∈ (lsaLE M n m).2, j < m := by
  have hne : injections n (List.range m) ≠ [] :=
    injections_ne_nil n (List.range m) (by simpa using h)
  obtain ⟨cols, hcols⟩ := argminCost_isSome (assignCost M) _ hne
  have hmem := argminCost_mem _ _ _ hcols
  unfold lsaLE
  rw [hcols]
  refine ⟨rfl, injections_length _ _ _ hmem,
    injections_nodup _ _ _ (List.nodup_range m) hmem, ?_⟩
  intro j hj
  have := injections_subset _ _ _ hmem j hj
  simpa using this

/-- Inserting into the row-sorted list permutes a cons. -/
theorem insertPairByRow_perm (p : ℕ × ℕ) :
    ∀ l : List (ℕ × ℕ), (insertPairByRow p l).Perm (p :: l) := by
  intro l
  induction l with
  | nil => exact List.Perm.refl _
  | cons q qs ih =>
    simp only [insertPairByRow]
    split
    · exact List.Perm.refl _
    · exact (ih.cons q).trans (List.Perm.swap p q qs)

/-- The row sort is a permutation. -/
theorem sortPairsByRow_perm : ∀ l : List (ℕ × ℕ), (sortPairsByRow l).Perm l := by
  intro l
  induction l with
  | nil => exact List.Perm.refl _
  | cons p ps ih => exact (insertPairByRow_perm p _).trans (ih.cons p)

/-- `linear_sum_assignment` on a rectangular matrix whose rows all have
length `m` returns `min(rows, m)` pairwise-distinct row indices below `rows`
and as many pairwise-distinct column indices below `m`. -/
theorem linear_sum_assignment_spec (M : List (List ℚ)) (m : ℕ)
    (hm : ∀ row ∈ M, row.length = m) :
    ((linear_sum_assignment M).1.length = min M.length m)
      ∧ ((linear_sum_assignment M).2.length = min M.length m)
      ∧ (linear_sum_assignment M).1.Nodup ∧ (linear_sum_assignment M).2.Nodup
      ∧ (∀ i ∈ (linear_sum_assignment M).1, i < M.length)
      ∧ (∀ j ∈ (linear_sum_assignment M).2, j < m) := by
  cases M with
  | nil =>
    have hnil : linear_sum_assignment [] = ([], []) := rfl
    rw [hnil]
    simp
  | cons row rest =>
    have hhead : ((row :: rest).headD []).length = m := hm row (by simp)
    by_cases hle : (row :: rest).length ≤ m
    · have hunf : linear_sum_assignment (row :: rest) =
          lsaLE (row :: rest) (row :: rest).length m := by
        simp only [linear_sum_assignment]
        rw [hhead, if_pos hle]
      obtain ⟨h1, h2, h3, h4⟩ := lsaLE_spec (row :: rest) (row :: rest).length m hle
      rw [hunf, h1]
      refine ⟨by rw [List.length_range]; exact (Nat.min_eq_left hle).symm,
        by rw [h2]; exact (Nat.min_eq_left hle).symm, ?_, h3, ?_, h4⟩
      · exact List.nodup_range _
      · intro i hi
        simpa using hi
    · have hmn : m ≤ (row :: rest).length := le_of_not_le hle
      have hunf : linear_sum_assignment (row :: rest) =
          (let p := lsaLE (transposeM (row :: rest) (row :: rest).length m) m
              (row :: rest).length
            let pairs := sortPairsByRow (p.2.zip p.1)
            (pairs.map Prod.fst, pairs.map Prod.snd)) := by
        simp only [linear_sum_assignment]
        rw [hhead, if_neg hle]
      obtain ⟨h1, h2, h3, h4⟩ :=
        lsaLE_spec (transposeM (row :: rest) (row :: rest).length m) m
          (row :: rest).length hmn
      set p := lsaLE (transposeM (row :: rest) (row :: rest).length m) m
        (row :: rest).length with hp
      have hr1 : (linear_sum_assignment (row :: rest)).1 =
          (sortPairsByRow (p.2.zip p.1)).map Prod.fst := by
        rw [hunf]
      have hr2 : (linear_sum_assignment (row :: rest)).2 =
          (sortPairsByRow (p.2.zip p.1)).map Prod.snd := by
        rw [hunf]
      have hperm := sortPairsByRow_perm (p.2.zip p.1)
      have hfst : (p.2.zip p.1).map Prod.fst = p.2 :=
        List.map_fst_zip _ _ (by rw [h2, h1, List.length_range])
      have hsnd : (p.2.zip p.1).map Prod.snd = p.1 :=
        List.map_snd_zip _ _ (by rw [h2, h1, List.length_range])
      have hpermf := hperm.map Prod.fst
      have hperms := hperm.map Prod.snd
      rw [hfst] at hpermf
      rw [hsnd] at hperms
      have hp1nodup : p.1.Nodup := by
        rw [h1]
        exact List.nodup_range _
      have hp1len : p.1.length = m := by
        rw [h1, List.length_range]
      have hminm : min (row :: rest).length m = m := Nat.min_eq_right hmn
      rw [hr1, hr2]
      refine ⟨?_, ?_, ?_, ?_, ?_, ?_⟩
      · rw [hpermf.length_eq, h2, hminm]
      · rw [hperms.length_eq, hp1len, hminm]
      · exact (hpermf.nodup_iff).mpr h3
      · exact (hperms.nodup_iff).mpr hp1nodup
      · intro i hi
        exact h4 i (hpermf.mem_iff.mp hi)
      · intro j hj
        have hj2 := hperms.mem_iff.mp hj
        rw [h1] at hj2
        simpa using hj2

/-- Length of the `b`-th piece of a sized split, when the list is long
enough. -/
theorem splitSizes_getD_length {α : Type} :
    ∀ (sizes : List ℕ) (l : List α) (b : ℕ), b < sizes.length → sizes.sum ≤ l.length →
      ((splitSizes sizes l).getD b []).length = sizes.getD b 0 := by
  intro sizes
  induction sizes with
  | nil => intro l b hb _; simp at hb
  | cons s rest ih =>
    intro l b hb hsum
    have hsum2 : s + rest.sum ≤ l.length := by simpa [List.sum_cons] using hsum
    cases b with
    | zero =>
      show (l.take s).length = s
      rw [List.length_take]
      exact Nat.min_eq_left (by omega)
    | succ b =>
      show ((splitSizes rest (l.drop s)).getD b []).length = rest.getD b 0
      refine ih (l.drop s) b (by simpa using hb) ?_
      rw [List.length_drop]
      omega

/-- A resolved row has the same length as the raw row. -/
theorem sequenceRow_length :
    ∀ (r : List (Option ℚ)) (v : List ℚ), sequenceRow r = some v → v.length = r.length := by
  intro r
  induction r with
  | nil =>
    intro v h
    simp only [sequenceRow, Option.some.injEq] at h
    simp [← h]
  | cons o rest ih =>
    intro v h
    cases o with
    | none => simp [sequenceRow] at h
    | some q =>
      cases hrec : sequenceRow rest with
      | none => rw [sequenceRow, hrec] at h; simp at h
      | some vs =>
        rw [sequenceRow, hrec] at h
        simp at h
        subst h
        simp [ih vs hrec]

/-- A resolved block has as many rows as the raw block, and its rows keep
their lengths. -/
theorem sequenceBlock_spec :
    ∀ (blk : List (List (Option ℚ))) (rows : List (List ℚ)),
      sequenceBlock blk = some rows →
        rows.length = blk.length ∧
          ∀ (m : ℕ), (∀ r ∈ blk, r.length = m) → ∀ r ∈ rows, r.length = m := by
  intro blk
  induction blk with
  | nil =>
    intro rows h
    simp only [sequenceBlock, Option.some.injEq] at h
    subst h
    exact ⟨rfl, fun m _ r hr => absurd hr (List.not_mem_nil r)⟩
  | cons r rest ih =>
    intro rows h
    cases hr : sequenceRow r with
    | none => rw [sequenceBlock, hr] at h; simp at h
    | some v =>
      cases hrec : sequenceBlock rest with
      | none => rw [sequenceBlock, hr, hrec] at h; simp at h
      | some vs =>
        rw [sequenceBlock, hr, hrec] at h
        simp at h
        subst h
        obtain ⟨hlen, hrows⟩ := ih vs hrec
        refine ⟨by simp [hlen], ?_⟩
        intro m hm q hq
        rcases List.mem_cons.mp hq with rfl | hq2
        · rw [sequenceRow_length r q hr]
          exact hm r (by simp)
        · exact hrows m (fun rr hrr => hm rr (List.mem_cons_of_mem _ hrr)) q hq2

/-- A resolved block list resolves blockwise. -/
theorem sequenceBlocks_spec :
    ∀ (bls : List (List (List (Option ℚ)))) (res : List (List (List ℚ))),
      sequenceBlocks bls = some res →
        res.length = bls.length ∧
          ∀ b, b < bls.length → sequenceBlock (bls.getD b []) = some (res.getD b []) := by
  intro bls
  induction bls with
  | nil =>
    intro res h
    simp only [sequenceBlocks, Option.some.injEq] at h
    subst h
    exact ⟨rfl, fun b hb => absurd hb (by simp)⟩
  | cons blk rest ih =>
    intro res h
    cases hb : sequenceBlock blk with
    | none => rw [sequenceBlocks, hb] at h; simp at h
    | some rows =>
      cases hrec : sequenceBlocks rest with
      | none => rw [sequenceBlocks, hb, hrec] at h; simp at h
      | some vs =>
        rw [sequenceBlocks, hb, hrec] at h
        simp at h
        subst h
        obtain ⟨hlen, hpt⟩ := ih vs hrec
        refine ⟨by simp [hlen], ?_⟩
        intro b hbb
        cases b with
        | zero => simpa using hb
        | succ b =>
          simp only [List.getD_cons_succ]
          exact hpt b (by simpa using hbb)

/-- The `b`-th block of the reshaped cost matrix, for `b` in range. -/
theorem viewRows_getD (bs q : ℕ) (rows : List (List (Option ℚ))) (b : ℕ) (hb : b < bs) :
    (viewRows bs q rows).getD b [] =
      (List.range q).map (fun i => rows.getD (b * q + i) []) := by
  unfold viewRows
  rw [List.getD_eq_getElem _ _ (by simpa using hb), List.getElem_map, List.getElem_range]

/-- `getD` through a map over `List.range`, in range. -/
theorem getD_map_range {α : Type} (n : ℕ) (f : ℕ → α) (b : ℕ) (hb : b < n) (d : α) :
    ((List.range n).map f).getD b d = f b := by
  rw [List.getD_eq_getElem _ _ (by simpa using hb), List.getElem_map, List.getElem_range]

/-- `getD` through a map, in range. -/
theorem getD_map_of_lt {α β : Type} (f : α → β) (l : List α) (b : ℕ) (hb : b < l.length)
    (d : α) (d2 : β) : (l.map f).getD b d2 = f (l.getD b d) := by
  rw [List.getD_eq_getElem _ _ (by simpa using hb), List.getElem_map,
    List.getD_eq_getElem _ _ hb]

end C1Lemmas

section C1Theorems

/-- C1 (amended): whenever `HungarianMatcher.forward` returns at all — no
degenerate-box assert, in-range class labels, consistent target shapes, and
no non-finite cost entries — it returns one `(index_i, index_j)` pair per
target-list entry such that, for each batch item `b`,
`len(index_i) = len(index_j) = min(num_queries, num_target_boxes_b)`, the
entries of `index_i` are pairwise distinct and in range, and the entries of
`index_j` are pairwise distinct and in range.  (The claim's unconditional
"always returns" fails: see the counterexample, where a degenerate box makes
the call raise instead.) -/
theorem C1_matcher_forward_valid (self : HungarianMatcher) (outputs : MatcherOutputs)
    (targets : List DetrTarget) (res : List (List ℕ × List ℕ))
    (h : self.forward outputs targets = Except.ok res) :
    res.length = targets.length ∧
      ∀ b, b < targets.length →
        ((res.getD b ([], [])).1.length =
            min (numQueries outputs)
              ((targets.getD b { class_labels := [], boxes := [] }).boxes.length))
          ∧ ((res.getD b ([], [])).2.length =
            min (numQueries outputs)
              ((targets.getD b { class_labels := [], boxes := [] }).boxes.length))
          ∧ (res.getD b ([], [])).1.Nodup ∧ (res.getD b ([], [])).2.Nodup
          ∧ (∀ i ∈ (res.getD b ([], [])).1, i < numQueries outputs)
          ∧ (∀ j ∈ (res.getD b ([], [])).2,
              j < (targets.getD b { class_labels := [], boxes := [] }).boxes.length) := by
  simp only [HungarianMatcher.forward] at h
  split at h
  · exact Except.noConfusion h
  · split at h
    · exact Except.noConfusion h
    · split at h
      · exact Except.noConfusion h
      · rename_i giou_matrix hgiou
        split at h
        · exact Except.noConfusion h
        · rename_i hbs
          split at h
          · exact Except.noConfusion h
          · rename_i resolved hseq
            simp only [Except.ok.injEq] at h
            subst h
            have hble : targets.length ≤ outputs.logits.length := le_of_not_lt hbs
            obtain ⟨hreslen, hpt⟩ := sequenceBlocks_spec _ _ hseq
            rw [List.length_map] at hreslen ⊢
            rw [List.length_range] at hreslen
            constructor
            · rw [hreslen]
            · intro b hb
              have hbres : b < resolved.length := by rw [hreslen]; exact hb
              have hblock := hpt b (by simpa using hb)
              rw [getD_map_range targets.length _ b hb] at hblock
              rw [viewRows_getD _ _ _ b (lt_of_lt_of_le hb hble), List.map_map] at hblock
              obtain ⟨hrowslen, hrows⟩ := sequenceBlock_spec _ _ hblock
              rw [List.length_map, List.length_range] at hrowslen
              -- the number of columns of block b
              have hsum : (targets.map (fun t => t.boxes.length)).sum =
                  ((targets.map DetrTarget.boxes).join).length := by
                rw [List.length_join, List.map_map]
                rfl
              have hresrows : ∀ r ∈ resolved.getD b [],
                  r.length = (targets.map fun t => t.boxes.length).getD b 0 := by
                refine hrows _ ?_
                intro r hr
                simp only [List.mem_map, List.mem_range, Function.comp] at hr
                obtain ⟨i, hi, rfl⟩ := hr
                have hidx : b * numQueries outputs + i <
                    outputs.logits.length * numQueries outputs := by
                  have h1 : b + 1 ≤ outputs.logits.length := lt_of_lt_of_le hb hble
                  calc b * numQueries outputs + i
                      < b * numQueries outputs + numQueries outputs := by omega
                    _ = (b + 1) * numQueries outputs := by ring
                    _ ≤ outputs.logits.length * numQueries outputs :=
                        Nat.mul_le_mul_right _ h1
                rw [getD_map_range _ _ _ hidx]
                refine splitSizes_getD_length _ _ b (by simpa using hb) ?_
                rw [hsum, List.length_map, List.length_range]
              have hlsa := linear_sum_assignment_spec (resolved.getD b [])
                ((targets.map fun t => t.boxes.length).getD b 0) hresrows
              have hres : (List.map linear_sum_assignment resolved).getD b ([], []) =
                  linear_sum_assignment (resolved.getD b []) :=
                getD_map_of_lt _ _ b hbres [] ([], [])
              rw [hres]
              have hgb : (targets.map fun t => t.boxes.length).getD b 0 =
                  (targets.getD b { class_labels := [], boxes := [] }).boxes.length :=
                getD_map_of_lt _ _ b hb { class_labels := [], boxes := [] } 0
              rw [hrowslen, hgb] at hlsa
              exact hlsa

/-- C1 counterexample: with a predicted box of negative width the
degenerate-box assert inside `generalized_box_iou` fires and
`HungarianMatcher.forward` raises instead of returning an assignment, so a
valid assignment is not "always returned" for every outputs dict. -/
theorem C1_matcher_forward_counterexample :
    HungarianMatcher.forward { class_cost := 1, bbox_cost := 1, giou_cost := 1 }
        { logits := [[[0, 0]]],
          pred_boxes := [[{ cx := 0, cy := 0, w := -1, h := 0 }]] }
        [{ class_labels := [0], boxes := [{ cx := 0, cy := 0, w := 0, h := 0 }] }] =
      Except.error "degenerate boxes" := by
  norm_num [HungarianMatcher.forward, numClasses, generalized_box_iou, isWellFormedBox,
    center_to_corners_format]

/-- C1 witness: a batch with two queries and an empty target list yields the
empty assignment with all the stated properties. -/
theorem C1_matcher_forward_valid_witness :
    ([([], [])] : List (List ℕ × List ℕ)).length = c1WitnessTargets.length ∧
      ∀ b, b < c1WitnessTargets.length →
        ((([([], [])] : List (List ℕ × List ℕ)).getD b ([], [])).1.length =
            min (numQueries c1WitnessOutputs)
              ((c1WitnessTargets.getD b { class_labels := [], boxes := [] }).boxes.length))
          ∧ ((([([], [])] : List (List ℕ × List ℕ)).getD b ([], [])).2.length =
            min (numQueries c1WitnessOutputs)
              ((c1WitnessTargets.getD b { class_labels := [], boxes := [] }).boxes.length))
          ∧ (([([], [])] : List (List ℕ × List ℕ)).getD b ([], [])).1.Nodup
          ∧ (([([], [])] : List (List ℕ × List ℕ)).getD b ([], [])).2.Nodup
          ∧ (∀ i ∈ (([([], [])] : List (List ℕ × List ℕ)).getD b ([], [])).1,
              i < numQueries c1WitnessOutputs)
          ∧ (∀ j ∈ (([([], [])] : List (List ℕ × List ℕ)).getD b ([], [])).2,
              j < (c1WitnessTargets.getD b { class_labels := [], boxes := [] }).boxes.length) :=
  C1_matcher_forward_valid { class_cost := 1, bbox_cost := 1, giou_cost := 1 }
    c1WitnessOutputs c1WitnessTargets [([], [])]
    (by norm_num [HungarianMatcher.forward, c1WitnessOutputs, c1WitnessTargets, numQueries,
      numClasses, generalized_box_iou, isWellFormedBox, center_to_corners_format, viewRows,
      splitSizes, sequenceBlocks, sequenceBlock, sequenceRow, linear_sum_assignment, lsaLE,
      injections, argminCost, transposeM, sortPairsByRow, insertPairByRow, List.range_succ])

end C1Theorems

section C7Theorems

/-- C7: the normalisation count `num_boxes` of `SetCriterion.forward` equals
the total number of target boxes summed across the batch, clamped below at 1
(the code sums `class_labels` lengths, which equal the box counts of
well-formed targets), and is strictly positive and nonzero — so the
divisions by `num_boxes` in `loss_boxes` are never divisions by zero, even
when every batch item has zero target boxes. -/
theorem C7_num_boxes_clamped (targets : List DetrTarget)
    (hlen : ∀ t ∈ targets, t.class_labels.length = t.boxes.length) :
    criterionNumBoxes targets = maxQ 1 ((targets.map (fun t => (t.boxes.length : ℚ))).sum)
      ∧ 0 < criterionNumBoxes targets ∧ criterionNumBoxes targets ≠ 0 := by
  have h1 : (1 : ℚ) ≤ criterionNumBoxes targets := by
    unfold criterionNumBoxes maxQ
    split
    · rename_i h
      exact h
    · exact le_refl 1
  refine ⟨?_, by linarith, by intro h0; rw [h0] at h1; linarith⟩
  unfold criterionNumBoxes
  congr 2
  apply List.map_congr_left
  intro t ht
  rw [hlen t ht]

/-- C7 witness: a batch of two targets with no boxes at all still yields the
clamped, strictly positive normalisation count 1. -/
theorem C7_num_boxes_clamped_witness :
    criterionNumBoxes [{ class_labels := [], boxes := [] },
        { class_labels := [], boxes := [] }] =
      maxQ 1 (([{ class_labels := [], boxes := [] },
          { class_labels := [], boxes := [] }] : List DetrTarget).map
        (fun t => (t.boxes.length : ℚ))).sum
      ∧ 0 < criterionNumBoxes [{ class_labels := [], boxes := [] },
          { class_labels := [], boxes := [] }]
      ∧ criterionNumBoxes [{ class_labels := [], boxes := [] },
          { class_labels := [], boxes := [] }] ≠ 0 :=
  C7_num_boxes_clamped
    [{ class_labels := [], boxes := [] }, { class_labels := [], boxes := [] }]
    (by intro t ht; simp only [List.mem_cons, List.not_mem_nil, or_false] at ht
        rcases ht with h | h <;> subst h <;> rfl)

end C7Theorems

section C4Lemmas

/-- Skipping `masks` inside the auxiliary loss loop computes exactly the
losses of the mask-free loss list. -/
theorem lossesForAux_eq_filter (c : SetCriterion) (outputs : MatcherOutputs)
    (targets : List DetrTarget) (indices : List (List ℕ × List ℕ)) (nb : ℚ) :
    ∀ losses : List String,
      lossesForAux c losses outputs targets indices nb =
        lossesFor c (losses.filter (fun s => decide (s ≠ "masks"))) outputs targets indices
          nb := by
  intro losses
  induction losses with
  | nil => rfl
  | cons l rest ih =>
    by_cases hl : l = "masks"
    · subst hl
      have hfil : ("masks" :: rest).filter (fun s => decide (s ≠ "masks")) =
          rest.filter (fun s => decide (s ≠ "masks")) := by
        simp [List.filter_cons]
      rw [lossesForAux, if_pos rfl, ih, hfil]
    · have hfil : (l :: rest).filter (fun s => decide (s ≠ "masks")) =
          l :: rest.filter (fun s => decide (s ≠ "masks")) := by
        simp [List.filter_cons, hl]
      rw [lossesForAux, if_neg hl, hfil, ih]
      rfl

/-- Characterisation of the auxiliary loop: one fresh matching and one
mask-free loss set per enumerated layer, keys suffixed with the layer
index. -/
theorem auxLoop_spec (c : SetCriterion) (targets : List DetrTarget) (nb : ℚ) :
    ∀ (ps : List (ℕ × MatcherOutputs)) (out : List (LossKey × Option ℚ)),
      auxLoop c targets nb ps = .ok out →
      ∃ parts : List (List (LossKey × Option ℚ)),
        out = parts.join ∧ parts.length = ps.length ∧
        ∀ i, i < ps.length →
          ∃ idxi li,
            c.matcher.forward (ps.getD i (0, { logits := [], pred_boxes := [] })).2 targets
                = .ok idxi
              ∧ lossesFor c (c.losses.filter (fun s => decide (s ≠ "masks")))
                  (ps.getD i (0, { logits := [], pred_boxes := [] })).2 targets idxi nb
                = .ok li
              ∧ parts.getD i [] = li.map (fun kv =>
                  ((kv.1, some (ps.getD i (0, { logits := [], pred_boxes := [] })).1),
                    kv.2)) := by
  intro ps
  induction ps with
  | nil =>
    intro out h
    rw [auxLoop] at h
    simp only [Except.ok.injEq] at h
    subst h
    exact ⟨[], rfl, rfl, fun i hi => absurd hi (by simp)⟩
  | cons p rest ih =>
    intro out h
    rw [auxLoop] at h
    cases hidx : c.matcher.forward p.2 targets with
    | error e => rw [hidx] at h; simp [bind, Except.bind] at h
    | ok idx =>
      rw [hidx] at h
      simp only [bind, Except.bind] at h
      cases hl : lossesForAux c c.losses p.2 targets idx nb with
      | error e => rw [hl] at h; simp at h
      | ok li =>
        rw [hl] at h
        cases hr : auxLoop c targets nb rest with
        | error e => rw [hr] at h; simp at h
        | ok r =>
          rw [hr] at h
          simp only [Except.ok.injEq] at h
          subst h
          obtain ⟨parts, hout, hplen, hpt⟩ := ih r hr
          refine ⟨li.map (fun kv => ((kv.1, some p.1), kv.2)) :: parts, ?_,
            by simp [hplen], ?_⟩
          · rw [hout]
            simp
          · intro i hi
            cases i with
            | zero =>
              refine ⟨idx, li, ?_, ?_, ?_⟩
              · simpa using hidx
              · rw [← lossesForAux_eq_filter]
                simpa using hl
              · simp
            | succ i =>
              simp only [List.getD_cons_succ]
              exact hpt i (by simpa using hi)

/-- `weightLookup` distributes over append, preferring the left entries. -/
theorem weightLookup_append (l1 l2 : List (LossKey × ℚ)) (k : LossKey) :
    weightLookup (l1 ++ l2) k =
      match weightLookup l1 k with
      | some v => some v
      | none => weightLookup l2 k := by
  induction l1 with
  | nil => rfl
  | cons p rest ih =>
    by_cases hp : p.1 = k
    · rw [List.cons_append, weightLookup, if_pos hp, weightLookup, if_pos hp]
    · rw [List.cons_append, weightLookup, if_neg hp, weightLookup, if_neg hp, ih]

/-- The auxiliary part of the weight dictionary has no entry for the
cardinality indicator. -/
theorem weightLookup_aux_card (bc gc : ℚ) :
    ∀ (n : ℕ) (j : Option ℕ),
      weightLookup ((List.range n).flatMap (fun i =>
        [((LossKeyBase.loss_ce, some i), 1), ((LossKeyBase.loss_bbox, some i), bc),
          ((LossKeyBase.loss_giou, some i), gc)])) (LossKeyBase.cardinality_error, j) =
        none := by
  intro n
  induction n with
  | zero => intro j; rfl
  | succ n ih =>
    intro j
    rw [List.range_succ, List.flatMap_append, weightLookup_append, ih j]
    rfl

/-- C4 weight-dictionary fact: no cardinality key, base or suffixed, carries
a configured weight. -/
theorem weightLookup_card_none (bc gc : ℚ) (n : ℕ) (j : Option ℕ) :
    weightLookup (detrWeightDict bc gc n) (LossKeyBase.cardinality_error, j) = none := by
  unfold detrWeightDict
  rw [weightLookup_append, weightLookup_aux_card]
  rfl

/-- The auxiliary weight entries for a layer index outside `range n` are
absent. -/
theorem weightLookup_aux_ge (bc gc : ℚ) (kb : LossKeyBase) :
    ∀ (n i : ℕ), n ≤ i →
      weightLookup ((List.range n).flatMap (fun m =>
        [((LossKeyBase.loss_ce, some m), 1), ((LossKeyBase.loss_bbox, some m), bc),
          ((LossKeyBase.loss_giou, some m), gc)])) (kb, some i) = none := by
  intro n
  induction n with
  | zero => intro i _; rfl
  | succ n ih =>
    intro i hi
    rw [List.range_succ, List.flatMap_append, weightLookup_append, ih i (by omega)]
    have hne : n ≠ i := by omega
    cases kb <;> simp [weightLookup, hne]

/-- The auxiliary weight entries for every layer index below `n` are
present with their configured coefficients. -/
theorem weightLookup_aux_lt (bc gc : ℚ) :
    ∀ (n i : ℕ), i < n →
      weightLookup ((List.range n).flatMap (fun m =>
          [((LossKeyBase.loss_ce, some m), 1), ((LossKeyBase.loss_bbox, some m), bc),
            ((LossKeyBase.loss_giou, some m), gc)])) (LossKeyBase.loss_ce, some i)
          = some 1
        ∧ weightLookup ((List.range n).flatMap (fun m =>
          [((LossKeyBase.loss_ce, some m), 1), ((LossKeyBase.loss_bbox, some m), bc),
            ((LossKeyBase.loss_giou, some m), gc)])) (LossKeyBase.loss_bbox, some i)
          = some bc
        ∧ weightLookup ((List.range n).flatMap (fun m =>
          [((LossKeyBase.loss_ce, some m), 1), ((LossKeyBase.loss_bbox, some m), bc),
            ((LossKeyBase.loss_giou, some m), gc)])) (LossKeyBase.loss_giou, some i)
          = some gc := by
  intro n
  induction n with
  | zero => intro i hi; simp at hi
  | succ n ih =>
    intro i hi
    by_cases hin : i < n
    · obtain ⟨h1, h2, h3⟩ := ih i hin
      rw [List.range_succ, List.flatMap_append]
      rw [weightLookup_append, h1]
      rw [weightLookup_append, h2]
      rw [weightLookup_append, h3]
      exact ⟨rfl, rfl, rfl⟩
    · have hieq : i = n := by omega
      rw [hieq, List.range_succ, List.flatMap_append]
      rw [weightLookup_append, weightLookup_aux_ge bc gc _ n n (le_refl n)]
      rw [weightLookup_append, weightLookup_aux_ge bc gc _ n n (le_refl n)]
      rw [weightLookup_append, weightLookup_aux_ge bc gc _ n n (le_refl n)]
      refine ⟨by simp [weightLookup], by simp [weightLookup], by simp [weightLookup]⟩

end C4Lemmas

section C4Theorems

/-- C4 (amended): when the criterion outputs carry auxiliary outputs, the
returned loss dictionary is the base losses (no suffix) followed, for each
intermediate layer `i`, by the same configured losses excluding the mask
loss, computed against a fresh matching of that layer's own outputs and
stored under the original keys suffixed with `i`.  In the model's weight
dictionary, the classification, box and GIoU terms of every layer carry
their configured weights, while no cardinality term — base or suffixed —
carries any weight, so the total loss `detrTotalLoss` sums exactly the
weighted non-cardinality terms.  (The claim's "sum of all resulting loss
terms each multiplied by its configured weight" fails for the cardinality
terms; see the counterexample.) -/
theorem C4_aux_losses (c : SetCriterion) (o : CriterionOutputs)
    (targets : List DetrTarget) (auxs : List MatcherOutputs)
    (res : List (LossKey × Option ℚ)) (bc gc : ℚ) (n : ℕ)
    (haux : o.auxiliary_outputs = some auxs)
    (h : criterionForward c o targets = Except.ok res) :
    (∃ idx base,
      c.matcher.forward o.withoutAux targets = Except.ok idx ∧
      lossesFor c c.losses o.withoutAux targets idx (criterionNumBoxes targets)
          = Except.ok base ∧
      ∃ parts : List (List (LossKey × Option ℚ)),
        res = base.map (fun kv => ((kv.1, (none : Option ℕ)), kv.2)) ++ parts.join ∧
        parts.length = auxs.length ∧
        ∀ i, i < auxs.length →
          ∃ idxi li,
            c.matcher.forward (auxs.getD i { logits := [], pred_boxes := [] }) targets
                = Except.ok idxi
              ∧ lossesFor c (c.losses.filter (fun s => decide (s ≠ "masks")))
                  (auxs.getD i { logits := [], pred_boxes := [] }) targets idxi
                  (criterionNumBoxes targets) = Except.ok li
              ∧ parts.getD i [] = li.map (fun kv => ((kv.1, some i), kv.2)))
      ∧ (∀ j, weightLookup (detrWeightDict bc gc n) (LossKeyBase.cardinality_error, j)
          = none)
      ∧ weightLookup (detrWeightDict bc gc n) (LossKeyBase.loss_ce, none) = some 1
      ∧ weightLookup (detrWeightDict bc gc n) (LossKeyBase.loss_bbox, none) = some bc
      ∧ weightLookup (detrWeightDict bc gc n) (LossKeyBase.loss_giou, none) = some gc
      ∧ (∀ i, i < n →
          weightLookup (detrWeightDict bc gc n) (LossKeyBase.loss_ce, some i) = some 1
          ∧ weightLookup (detrWeightDict bc gc n) (LossKeyBase.loss_bbox, some i) = some bc
          ∧ weightLookup (detrWeightDict bc gc n) (LossKeyBase.loss_giou, some i)
            = some gc) := by
  have hbase_some : ∀ (kb : LossKeyBase) (i : ℕ),
      weightLookup [((LossKeyBase.loss_ce, none), 1), ((LossKeyBase.loss_bbox, none), bc),
        ((LossKeyBase.loss_giou, none), gc)] (kb, some i) = none := by
    intro kb i
    cases kb <;> rfl
  refine ⟨?_, fun j => weightLookup_card_none bc gc n j, rfl, rfl, rfl, ?_⟩
  · -- structure of the returned loss dictionary
    have hunf : criterionForward c o targets = (do
        let idx ← c.matcher.forward o.withoutAux targets
        let base ← lossesFor c c.losses o.withoutAux targets idx (criterionNumBoxes targets)
        let auxK ← auxLoop c targets (criterionNumBoxes targets) auxs.enum
        pure (base.map (fun kv => ((kv.1, (none : Option ℕ)), kv.2)) ++ auxK)) := by
      simp only [criterionForward, haux]
    rw [hunf] at h
    cases hidx : c.matcher.forward o.withoutAux targets with
    | error e => rw [hidx] at h; simp [bind, Except.bind] at h
    | ok idx =>
      rw [hidx] at h
      simp only [bind, Except.bind] at h
      cases hbase : lossesFor c c.losses o.withoutAux targets idx
          (criterionNumBoxes targets) with
      | error e => rw [hbase] at h; simp at h
      | ok base =>
        rw [hbase] at h
        cases haul : auxLoop c targets (criterionNumBoxes targets) auxs.enum with
        | error e => rw [haul] at h; simp at h
        | ok auxK =>
          rw [haul] at h
          simp only [pure, Except.pure, Except.ok.injEq] at h
          subst h
          obtain ⟨parts, hout, hplen, hpt⟩ := auxLoop_spec c targets _ auxs.enum auxK haul
          have henumD : ∀ i, i < auxs.length →
              (auxs.enum).getD i (0, { logits := [], pred_boxes := [] }) =
                (i, auxs.getD i { logits := [], pred_boxes := [] }) := by
            intro i hi
            rw [List.getD_eq_getElem _ _ (by simpa using hi),
              List.getD_eq_getElem _ _ hi, List.getElem_enum]
          refine ⟨idx, base, rfl, hbase, parts, by rw [hout], by simpa using hplen, ?_⟩
          intro i hi
          obtain ⟨idxi, li, h1, h2, h3⟩ := hpt i (by simpa using hi)
          rw [henumD i hi] at h1 h2 h3
          exact ⟨idxi, li, h1, h2, h3⟩
  · intro i hi
    unfold detrWeightDict
    rw [weightLookup_append, weightLookup_append, weightLookup_append]
    rw [hbase_some, hbase_some, hbase_some]
    obtain ⟨h1, h2, h3⟩ := weightLookup_aux_lt bc gc n i hi
    exact ⟨h1, h2, h3⟩

/-- C4 counterexample: on a concrete run with one auxiliary layer, the loss
dictionary contains cardinality terms with the nonzero value `1` at the
final layer and at layer 0, yet the model's weight dictionary configures no
weight for either — so the total loss is not "the sum of all resulting loss
terms each multiplied by its configured per-term weight": the cardinality
terms have no configured weight and are dropped. -/
theorem C4_total_loss_counterexample :
    criterionForward c4Criterion c4Outputs c4Targets = Except.ok c4Result
      ∧ ((LossKeyBase.cardinality_error, (none : Option ℕ)), some (1 : ℚ)) ∈ c4Result
      ∧ ((LossKeyBase.cardinality_error, some 0), some (1 : ℚ)) ∈ c4Result
      ∧ weightLookup (detrWeightDict 5 2 1) (LossKeyBase.cardinality_error, none) = none
      ∧ weightLookup (detrWeightDict 5 2 1) (LossKeyBase.cardinality_error, some 0) =
        none := by
  refine ⟨?_, by simp [c4Result], by simp [c4Result], rfl, rfl⟩
  norm_num [criterionForward, c4Criterion, c4Outputs, c4Targets, c4AuxLayer, c4Result,
    CriterionOutputs.withoutAux, HungarianMatcher.forward, numQueries, numClasses,
    generalized_box_iou, isWellFormedBox, center_to_corners_format, viewRows, splitSizes,
    sequenceBlocks, sequenceBlock, sequenceRow, linear_sum_assignment, lsaLE, injections,
    argminCost, transposeM, sortPairsByRow, insertPairByRow, List.range_succ,
    criterionNumBoxes, maxQ, lossesFor, lossesForAux, auxLoop, get_loss, loss_labels,
    loss_cardinality, loss_boxes, targetClasses, scatterRow, crossEntropyWeighted,
    empty_weight, softmaxRow, expQ, expTaylor, logQ, argmaxIdx, l1CenterBox,
    Nat.factorial, bind, Except.bind, pure, Except.pure]
  simp +decide

/-- C4 witness: the amended theorem applied to the concrete one-auxiliary-
layer run used in the counterexample. -/
theorem C4_aux_losses_witness :
    (∃ idx base,
      c4Criterion.matcher.forward c4Outputs.withoutAux c4Targets = Except.ok idx ∧
      lossesFor c4Criterion c4Criterion.losses c4Outputs.withoutAux c4Targets idx
          (criterionNumBoxes c4Targets) = Except.ok base ∧
      ∃ parts : List (List (LossKey × Option ℚ)),
        c4Result = base.map (fun kv => ((kv.1, (none : Option ℕ)), kv.2)) ++ parts.join ∧
        parts.length = [c4AuxLayer].length ∧
        ∀ i, i < [c4AuxLayer].length →
          ∃ idxi li,
            c4Criterion.matcher.forward
                ([c4AuxLayer].getD i { logits := [], pred_boxes := [] }) c4Targets
                = Except.ok idxi
              ∧ lossesFor c4Criterion
                  (c4Criterion.losses.filter (fun s => decide (s ≠ "masks")))
                  ([c4AuxLayer].getD i { logits := [], pred_boxes := [] }) c4Targets idxi
                  (criterionNumBoxes c4Targets) = Except.ok li
              ∧ parts.getD i [] = li.map (fun kv => ((kv.1, some i), kv.2)))
      ∧ (∀ j, weightLookup (detrWeightDict 5 2 1) (LossKeyBase.cardinality_error, j)
          = none)
      ∧ weightLookup (detrWeightDict 5 2 1) (LossKeyBase.loss_ce, none) = some 1
      ∧ weightLookup (detrWeightDict 5 2 1) (LossKeyBase.loss_bbox, none) = some 5
      ∧ weightLookup (detrWeightDict 5 2 1) (LossKeyBase.loss_giou, none) = some 2
      ∧ (∀ i, i < 1 →
          weightLookup (detrWeightDict 5 2 1) (LossKeyBase.loss_ce, some i) = some 1
          ∧ weightLookup (detrWeightDict 5 2 1) (LossKeyBase.loss_bbox, some i) = some 5
          ∧ weightLookup (detrWeightDict 5 2 1) (LossKeyBase.loss_giou, some i)
            = some 2) :=
  C4_aux_losses c4Criterion c4Outputs c4Targets [c4AuxLayer] c4Result 5 2 1 rfl
    (by
      norm_num [criterionForward, c4Criterion, c4Outputs, c4Targets, c4AuxLayer, c4Result,
        CriterionOutputs.withoutAux, HungarianMatcher.forward, numQueries, numClasses,
        generalized_box_iou, isWellFormedBox, center_to_corners_format, viewRows,
        splitSizes, sequenceBlocks, sequenceBlock, sequenceRow, linear_sum_assignment,
        lsaLE, injections, argminCost, transposeM, sortPairsByRow, insertPairByRow,
        List.range_succ, criterionNumBoxes, maxQ, lossesFor, lossesForAux, auxLoop,
        get_loss, loss_labels, loss_cardinality, loss_boxes, targetClasses, scatterRow,
        crossEntropyWeighted, empty_weight, softmaxRow, expQ, expTaylor, logQ, argmaxIdx,
        l1CenterBox, Nat.factorial, bind, Except.bind, pure, Except.pure]
      simp +decide)

end C4Theorems

end Spec2Proof
